import Mathlib

/-!
Verification development for the Modai embedded-protocol extractor and
agentic loop controller (src/src/index.ts and src/src/cli.ts).

Strings from the TypeScript source are modelled as `List Char`; JavaScript
runtime values produced by `JSON.parse` are modelled by the inductive `JVal`.
All definitions are written as executable structural (or fuel-based)
recursions so that every function evaluates by kernel reduction on concrete
inputs.  Fuel parameters, where present, are internal totality devices: each
is instantiated by callers with a bound that the accompanying comment argues
can never be exhausted, so they do not change the modelled behaviour.
-/

set_option maxRecDepth 100000

/-- Abbreviation turning a Lean string literal into the `List Char` carrier
used throughout this development. -/
def cl (s : String) : List Char := s.data

/-- Model of a JavaScript value as produced by `JSON.parse`: null, booleans,
numbers (kept as exact decimal mantissa × 10 ^ exponent rather than IEEE
doubles; no claim in this development depends on float rounding), strings,
arrays, and objects as ordered field lists.  Duplicate keys can occur in the
list; field access takes the last binding, matching JavaScript object
semantics for duplicate JSON keys. -/
inductive JVal where
  | null : JVal
  | bool : Bool → JVal
  | num : Int → Int → JVal
  | str : List Char → JVal
  | arr : List JVal → JVal
  | obj : List (List Char × JVal) → JVal

/-- Field lookup in an object member list, last binding wins (JavaScript
assigns duplicate JSON keys in order, so the final value is kept). -/
def jGetField : List (List Char × JVal) → List Char → Option JVal
  | [], _ => none
  | (k, v) :: rest, key =>
    match jGetField rest key with
    | some w => some w
    | none => if k = key then some v else none

/-- Property access `v[key]` on a parsed value: defined on objects, and
`undefined` (`none`) on every other value, matching how the source only ever
reads `protocol`, `tool` and `arguments` off parse results. -/
def jGet : JVal → List Char → Option JVal
  | JVal.obj ms, key => jGetField ms key
  | _, _ => none

/-- JavaScript truthiness of a value: `null`, `false`, `0` and the empty
string are falsy; every other value, including the empty object and empty
array, is truthy. -/
def jTruthy : JVal → Bool
  | JVal.null => false
  | JVal.bool b => b
  | JVal.num m _ => !(m == 0)
  | JVal.str s => !s.isEmpty
  | JVal.arr _ => true
  | JVal.obj _ => true

/-- Truthiness of a possibly-absent property (`undefined` is falsy). -/
def truthyO : Option JVal → Bool
  | none => false
  | some v => jTruthy v

/-- The check `obj.protocol === "modai"` from the source: true exactly when
the value is an object whose `protocol` field is the string "modai". -/
def protocolModai (v : JVal) : Bool :=
  match jGet v (cl "protocol") with
  | some (JVal.str m) => m == cl "modai"
  | _ => false

/-- Exact decimal equality of two mantissa/exponent numbers, modelling the
numeric case of JavaScript strict equality. -/
def numValEq (m1 e1 m2 e2 : Int) : Bool :=
  if e1 ≤ e2 then m1 == m2 * (10 : Int) ^ (e2 - e1).toNat
  else m1 * (10 : Int) ^ (e1 - e2).toNat == m2

/-- JavaScript strict equality between two parsed values.  Objects and
arrays compare by reference in JavaScript; every comparison the source makes
between two non-primitive values compares results of two separate
`parseJsonObjects` runs, hence always distinct references, so the model
returns `false` for them. -/
def jStrictEq : JVal → JVal → Bool
  | JVal.null, JVal.null => true
  | JVal.bool a, JVal.bool b => a == b
  | JVal.num m1 e1, JVal.num m2 e2 => numValEq m1 e1 m2 e2
  | JVal.str a, JVal.str b => a == b
  | _, _ => false

/-- Strict equality where either side may be `undefined`; in JavaScript
`undefined === undefined` holds. -/
def jStrictEqO : Option JVal → Option JVal → Bool
  | none, none => true
  | some a, some b => jStrictEq a b
  | _, _ => false

/-! ### A model of the JavaScript builtin `JSON.parse`

The extractor hands brace-balanced candidate substrings to `JSON.parse`.
The grammar implemented below is the JSON grammar that builtin accepts:
whitespace is space/tab/newline/carriage-return, strings reject raw control
characters and accept the standard escapes, numbers follow the strict JSON
number grammar (no leading zeros, mandatory digits around `.` and after an
exponent marker).  Unicode `\u` escapes are decoded per code unit;
surrogate-pair recombination is not modelled (no claim exercises non-BMP
escapes). -/

/-- JSON insignificant whitespace. -/
def isJsonWs (c : Char) : Bool := c == ' ' || c == '\t' || c == '\n' || c == '\r'

/-- Drop leading JSON whitespace. -/
def skipJWs : List Char → List Char
  | [] => []
  | c :: cs => if isJsonWs c then skipJWs cs else c :: cs

/-- Hex digit value. -/
def hexNib (c : Char) : Option Nat :=
  if '0' ≤ c ∧ c ≤ '9' then some (c.toNat - 48)
  else if 'a' ≤ c ∧ c ≤ 'f' then some (c.toNat - 87)
  else if 'A' ≤ c ∧ c ≤ 'F' then some (c.toNat - 55)
  else none

/-- The single-character JSON string escapes. -/
def escTok (c : Char) : Option Char :=
  if c = '"' then some '"'
  else if c = '\\' then some '\\'
  else if c = '/' then some '/'
  else if c = 'b' then some (Char.ofNat 8)
  else if c = 'f' then some (Char.ofNat 12)
  else if c = 'n' then some '\n'
  else if c = 'r' then some '\r'
  else if c = 't' then some '\t'
  else none

/-- Parse the body of a JSON string after the opening quote, returning the
decoded content and the remainder after the closing quote.  Raw control
characters (below 0x20) are rejected, as `JSON.parse` rejects them. -/
def jstrBody : List Char → Option (List Char × List Char)
  | [] => none
  | c :: rest =>
    if c == '"' then some ([], rest)
    else if c == '\\' then
      match rest with
      | 'u' :: h1 :: h2 :: h3 :: h4 :: rest2 =>
        (match hexNib h1, hexNib h2, hexNib h3, hexNib h4 with
         | some x1, some x2, some x3, some x4 =>
           (jstrBody rest2).map
             (fun p => (Char.ofNat (((x1 * 16 + x2) * 16 + x3) * 16 + x4) :: p.1, p.2))
         | _, _, _, _ => none)
      | e :: rest2 =>
        (match escTok e with
         | some ch => (jstrBody rest2).map (fun p => (ch :: p.1, p.2))
         | none => none)
      | [] => none
    else if decide (c.toNat < 32) then none
    else (jstrBody rest).map (fun p => (c :: p.1, p.2))

/-- ASCII decimal digit test. -/
def isDigitC (c : Char) : Bool := '0' ≤ c && c ≤ '9'

/-- Split off a (possibly empty) run of leading digits. -/
def digitSpan (cs : List Char) : List Char × List Char :=
  (cs.takeWhile isDigitC, cs.dropWhile isDigitC)

/-- Numeric value of a digit run. -/
def natOfDigits (ds : List Char) : Nat :=
  ds.foldl (fun a c => a * 10 + (c.toNat - 48)) 0

/-- Lex a JSON number token: returns mantissa and decimal exponent plus the
remainder.  Follows the strict JSON grammar: optional minus, integer part
with no leading zero (unless it is exactly `0`), optional fraction with at
least one digit, optional exponent with at least one digit. -/
def jnumTok (cs : List Char) : Option ((Int × Int) × List Char) :=
  let signedTail := match cs with
    | '-' :: r => (true, r)
    | _ => (false, cs)
  let neg := signedTail.1
  let cs1 := signedTail.2
  let intSpan := digitSpan cs1
  let ids := intSpan.1
  let r1 := intSpan.2
  if ids.isEmpty then none
  else if 1 < ids.length ∧ ids.headI = '0' then none
  else
    let hasFrac : Bool := match r1 with
      | '.' :: _ => true
      | _ => false
    let fracSpan : List Char × List Char := match r1 with
      | '.' :: r2 => digitSpan r2
      | _ => ([], r1)
    let fds := fracSpan.1
    let r3 := if hasFrac then fracSpan.2 else r1
    if hasFrac && fds.isEmpty then none
    else
      let expPart : Option (Int × List Char) := match r3 with
        | 'e' :: r4 | 'E' :: r4 =>
          let se : Int × List Char := match r4 with
            | '+' :: r5 => (1, r5)
            | '-' :: r5 => (-1, r5)
            | _ => (1, r4)
          let eSpan := digitSpan se.2
          if eSpan.1.isEmpty then none else some (se.1 * (natOfDigits eSpan.1 : Int), eSpan.2)
        | _ => some (0, r3)
      match expPart with
      | none => none
      | some (ev, r6) =>
        let mant : Int := (if neg then -1 else 1) * (natOfDigits (ids ++ fds) : Int)
        some ((mant, ev - (fds.length : Int)), r6)

mutual
/-- Parse one JSON value (model of the recursive descent inside
`JSON.parse`).  The fuel argument only serves totality; `jsonParse` below
supplies `2 * length + 4`, which the call-consumption argument in its
comment shows can never run out. -/
def jval? : Nat → List Char → Option (JVal × List Char)
  | 0, _ => none
  | fuel + 1, cs =>
    match skipJWs cs with
    | 'n' :: 'u' :: 'l' :: 'l' :: r => some (JVal.null, r)
    | 't' :: 'r' :: 'u' :: 'e' :: r => some (JVal.bool true, r)
    | 'f' :: 'a' :: 'l' :: 's' :: 'e' :: r => some (JVal.bool false, r)
    | '"' :: r => (jstrBody r).map (fun p => (JVal.str p.1, p.2))
    | '{' :: r =>
      (match skipJWs r with
       | '}' :: r2 => some (JVal.obj [], r2)
       | r1 => (jfields? fuel r1).map (fun p => (JVal.obj p.1, p.2)))
    | '[' :: r =>
      (match skipJWs r with
       | ']' :: r2 => some (JVal.arr [], r2)
       | r1 => (jitems? fuel r1).map (fun p => (JVal.arr p.1, p.2)))
    | r => (jnumTok r).map (fun p => (JVal.num p.1.1 p.1.2, p.2))

/-- Parse one or more comma-separated array items up to the closing bracket. -/
def jitems? : Nat → List Char → Option (List JVal × List Char)
  | 0, _ => none
  | fuel + 1, cs =>
    match jval? fuel cs with
    | none => none
    | some (v, r) =>
      match skipJWs r with
      | ',' :: r2 => (jitems? fuel r2).map (fun p => (v :: p.1, p.2))
      | ']' :: r2 => some ([v], r2)
      | _ => none

/-- Parse one or more comma-separated object members up to the closing brace. -/
def jfields? : Nat → List Char → Option (List (List Char × JVal) × List Char)
  | 0, _ => none
  | fuel + 1, cs =>
    match skipJWs cs with
    | '"' :: r =>
      (match jstrBody r with
       | none => none
       | some (key, r1) =>
         match skipJWs r1 with
         | ':' :: r2 =>
           (match jval? fuel r2 with
            | none => none
            | some (v, r3) =>
              match skipJWs r3 with
              | ',' :: r4 => (jfields? fuel r4).map (fun p => ((key, v) :: p.1, p.2))
              | '}' :: r4 => some ([(key, v)], r4)
              | _ => none)
         | _ => none)
    | _ => none
end

/-- Model of `JSON.parse` applied to a whole candidate string: parse one
value and require only whitespace to remain, else fail (the builtin throws
on trailing content).  Fuel `2 * length + 4` suffices for every input: along
any chain of nested calls, every two consecutive calls consume at least one
input character before recursing (an object consumes its brace and the key
quote/colon, an array its bracket), so the call depth is below `2 * length + 2`. -/
def jsonParse (cs : List Char) : Option JVal :=
  match jval? (2 * cs.length + 4) cs with
  | some (v, r) => if skipJWs r = [] then some v else none
  | none => none

/-! ### The Directive Extractor (src/src/index.ts, class Modai)

`extractJsonObject(text, startIndex)` is modelled on the suffix of the text
that starts at `startIndex`: `extractScan bc inStr esc suffix` walks that
suffix with the same three pieces of state as the source loop (`braceCount`,
`inString`, `escaped`) and returns the consumed substring up to and
including the brace that takes the counter back to zero, or `none` when the
input ends first. -/

/-- The balanced-brace scan of `extractJsonObject`: a quote toggles the
in-string flag unless the previous character was an unescaped backslash, a
backslash marks exactly the next character as escaped, and braces adjust the
counter only outside strings; when a closing brace brings the counter to
zero the substring scanned so far is returned. -/
def extractScan : Int → Bool → Bool → List Char → Option (List Char)
  | _, _, _, [] => none
  | bc, inStr, esc, c :: rest =>
    if esc then (extractScan bc inStr false rest).map (List.cons c)
    else if c = '\\' then (extractScan bc inStr true rest).map (List.cons c)
    else if c = '"' then (extractScan bc (!inStr) false rest).map (List.cons c)
    else if inStr then (extractScan bc inStr false rest).map (List.cons c)
    else if c = '{' then (extractScan (bc + 1) inStr false rest).map (List.cons c)
    else if c = '}' then
      (if bc - 1 = 0 then some [c]
       else (extractScan (bc - 1) inStr false rest).map (List.cons c))
    else (extractScan bc inStr false rest).map (List.cons c)

/-- `extractJsonObject` at a given start position, taking the suffix of the
text from that position: initial state has counter 0 and both flags clear. -/
def extractJsonObject (suffix : List Char) : Option (List Char) :=
  extractScan 0 false false suffix

/-- One global two-character replacement pass, modelling one
`.replace(/\\X/g, "X")` call: scans left to right, non-overlapping. -/
def replacePair (a b rep : Char) : List Char → List Char
  | [] => []
  | [x] => [x]
  | x :: y :: rest =>
    if x = a ∧ y = b then rep :: replacePair a b rep rest
    else x :: replacePair a b rep (y :: rest)

/-- The three sequential unescaping passes of `fuzzyJsonParse`: escaped
braces and escaped quotes are replaced by their bare forms. -/
def fuzzyClean (cs : List Char) : List Char :=
  replacePair '\\' '"' '"' (replacePair '\\' '}' '}' (replacePair '\\' '{' '{' cs))

/-! Models of the three regular expressions used by
`manualKeyValueExtraction`.  A JavaScript `string.match(re)` returns the
leftmost match: the engine attempts the pattern at each successive start
index.  None of the three patterns requires backtracking: the character
classes of each greedy piece exclude the character that must follow it. -/

/-- JavaScript regex whitespace class and the whitespace removed by
`String.prototype.trim`, restricted to the code points that can occur here
(ASCII whitespace plus no-break space and BOM; the remaining exotic Unicode
space characters never appear in the modelled inputs). -/
def isJsWs (c : Char) : Bool :=
  c == ' ' || c == '\t' || c == '\n' || c == '\r' ||
  c == Char.ofNat 11 || c == Char.ofNat 12 || c == Char.ofNat 160 || c == Char.ofNat 65279

/-- `String.prototype.trim`. -/
def trimJS (cs : List Char) : List Char :=
  ((cs.dropWhile isJsWs).reverse.dropWhile isJsWs).reverse

/-- Match a literal character sequence at the head, returning the remainder. -/
def litHead : List Char → List Char → Option (List Char)
  | [], cs => some cs
  | _ :: _, [] => none
  | l :: ls, c :: cs => if c = l then litHead ls cs else none

/-- Attempt the pattern `"KEY"\s*:\s*"([^"]+)"` at the head of the input,
returning the captured group. -/
def keyStrMatchAt (key : List Char) (cs : List Char) : Option (List Char) :=
  match litHead ('"' :: key ++ ['"']) cs with
  | none => none
  | some r1 =>
    match r1.dropWhile isJsWs with
    | ':' :: r2 =>
      (match r2.dropWhile isJsWs with
       | '"' :: r3 =>
         let cap := r3.takeWhile (fun c => !(c == '"'))
         if cap.isEmpty then none
         else
           match r3.dropWhile (fun c => !(c == '"')) with
           | '"' :: _ => some cap
           | _ => none
       | _ => none)
    | _ => none

/-- Attempt the pattern `"arguments"\s*:\s*({[^}]*})` at the head of the
input, returning the captured group including its braces. -/
def argsMatchAt (cs : List Char) : Option (List Char) :=
  match litHead ('"' :: cl "arguments" ++ ['"']) cs with
  | none => none
  | some r1 =>
    match r1.dropWhile isJsWs with
    | ':' :: r2 =>
      (match r2.dropWhile isJsWs with
       | '{' :: r3 =>
         let inner := r3.takeWhile (fun c => !(c == '}'))
         (match r3.dropWhile (fun c => !(c == '}')) with
          | '}' :: _ => some ('{' :: inner ++ ['}'])
          | _ => none)
       | _ => none)
    | _ => none

/-- Leftmost-match search: try the pattern at every start position in order. -/
def scanFirst (f : List Char → Option (List Char)) : List Char → Option (List Char)
  | [] => f []
  | c :: rest =>
    match f (c :: rest) with
    | some x => some x
    | none => scanFirst f rest

/-- The splitting loop of `splitArguments`: accumulates the current piece
(in reverse), tracking in-string and escaped flags exactly as the source
does, splitting on commas outside strings, trimming each piece and dropping
empty pieces. -/
def splitArgsAux : List Char → Bool → Bool → List Char → List (List Char)
  | cur, _, _, [] =>
    (if (trimJS cur.reverse).isEmpty then [] else [trimJS cur.reverse])
  | cur, inStr, esc, c :: rest =>
    if esc then splitArgsAux (c :: cur) inStr false rest
    else if c = '\\' then splitArgsAux (c :: cur) inStr true rest
    else if c = '"' then splitArgsAux (c :: cur) (!inStr) false rest
    else if c = ',' then
      (if inStr then splitArgsAux (c :: cur) inStr false rest
       else if (trimJS cur.reverse).isEmpty then splitArgsAux [] false false rest
       else trimJS cur.reverse :: splitArgsAux [] false false rest)
    else splitArgsAux (c :: cur) inStr false rest

/-- `splitArguments(content)`: split on commas that are not inside a quoted
string, respecting backslash escapes, keeping only nonempty trimmed pieces. -/
def splitArguments (content : List Char) : List (List Char) :=
  splitArgsAux [] false false content

/-- Strip one leading and one trailing double quote, modelling the global
replace of `/^"|"$/`. -/
def stripEdgeQuotes (cs : List Char) : List Char :=
  let s1 := match cs with
    | '"' :: r => r
    | other => other
  match s1.reverse with
  | '"' :: r => r.reverse
  | _ => s1

/-- One `key:value` pair of `parseArgumentsManually`: the split is at the
first colon, which must not be at position 0; the key is trimmed and has all
quotes removed, the value is trimmed and has one quote stripped from each
edge, and is always stored as a string. -/
def pairToKV (pair : List Char) : Option (List Char × JVal) :=
  match pair.findIdx? (fun c => c == ':') with
  | some (i + 1) =>
    some (((trimJS (pair.take (i + 1))).filter (fun c => !(c == '"'))),
      JVal.str (stripEdgeQuotes (trimJS (pair.drop (i + 2)))))
  | _ => none

/-- `parseArgumentsManually(argsStr)`: remove every brace, trim, split into
pairs, and build a flat string-valued mapping from the pairs that contain a
colon past position 0. -/
def parseArgumentsManually (argsStr : List Char) : JVal :=
  JVal.obj ((splitArguments (trimJS (argsStr.filter
    (fun c => !(c == '{' || c == '}'))))).filterMap pairToKV)

/-- `manualKeyValueExtraction(text)`: recover `protocol` and `tool` via the
quoted-value patterns and `arguments` via the brace-region pattern (strict
parse of the region first, manual splitting as fallback); return the object
only if all three recovered values are truthy, as the source's final
`obj.protocol && obj.tool && obj.arguments` check demands. -/
def manualKeyValueExtraction (text : List Char) : Option JVal :=
  let p? := scanFirst (keyStrMatchAt (cl "protocol")) text
  let t? := scanFirst (keyStrMatchAt (cl "tool")) text
  let a? := (scanFirst argsMatchAt text).map (fun cap =>
    match jsonParse cap with
    | some v => v
    | none => parseArgumentsManually cap)
  match p?, t?, a? with
  | some p, some t, some a =>
    if !p.isEmpty && (!t.isEmpty && jTruthy a) then
      some (JVal.obj [(cl "protocol", JVal.str p), (cl "tool", JVal.str t),
        (cl "arguments", a)])
    else none
  | _, _, _ => none

/-- `fuzzyJsonParse(jsonStr)`: strict parse of the unescaped text, falling
back to manual key-value extraction applied to the original text. -/
def fuzzyJsonParse (js : List Char) : Option JVal :=
  match jsonParse (fuzzyClean js) with
  | some v => some v
  | none => manualKeyValueExtraction js

/-- The per-candidate parse cascade shared by `parseJsonObjects` and
`cleanToolsFromResponse`: strict `JSON.parse` first; only when it fails,
`fuzzyJsonParse`.  (Both source loops duplicate this try/catch shape.) -/
def candidateVal (js : List Char) : Option JVal :=
  match jsonParse js with
  | some v => some v
  | none => fuzzyJsonParse js

/-- Whether a candidate substring is recognized as a protocol object: the
cascade produced a value whose `protocol` field is the string "modai". -/
def pushCond (js : List Char) : Bool :=
  match candidateVal js with
  | some v => protocolModai v
  | none => false

/-- The scanning loop of `parseJsonObjects`: find the next `{`, run the
balanced scan from it; on a successful extraction, parse the candidate
through the cascade, keep it when recognized, and resume after the whole
extracted span; on a failed extraction resume one position past the `{`.
Fuel only serves totality: the scan position strictly advances, so
`length + 1` iterations always suffice. -/
def pjF : Nat → List Char → List JVal
  | 0, _ => []
  | fuel + 1, text =>
    match text.dropWhile (fun c => !(c == '{')) with
    | [] => []
    | c :: tl =>
      match extractScan 0 false false (c :: tl) with
      | some js =>
        (match candidateVal js with
         | some v => if protocolModai v then [v] else []
         | none => []) ++ pjF fuel ((c :: tl).drop js.length)
      | none => pjF fuel tl

/-- `parseJsonObjects(text)`. -/
def parseJsonObjects (text : List Char) : List JVal :=
  pjF (text.length + 1) text

/-- `extractAndExecuteTools(response)`: the parsed protocol objects whose
`protocol` field strictly equals "modai" and whose `tool` and `arguments`
fields are truthy. -/
def extractAndExecuteTools (response : List Char) : List JVal :=
  (parseJsonObjects response).filter (fun req =>
    protocolModai req && (truthyO (jGet req (cl "tool")) &&
      truthyO (jGet req (cl "arguments"))))

/-- `findToolRequestInResponse(response, toolName)`: first parsed protocol
object whose `tool` field is strictly equal to the given value (the value
is whatever was read off a previously parsed request, hence `Option JVal`). -/
def findToolRequestInResponse (response : List Char) (toolName : Option JVal) : Option JVal :=
  (parseJsonObjects response).find? (fun o => jStrictEqO (jGet o (cl "tool")) toolName)

/-- The deletion loop of `cleanToolsFromResponse`: like the extraction loop,
but a recognized span is deleted and scanning resumes at the deletion point,
while an unrecognized or unextractable candidate leaves its opening brace in
place and scanning resumes one position later (so the interior of an
unrecognized balanced span is rescanned, unlike in `parseJsonObjects`).
Fuel `length + 1` again always suffices. -/
def cleanAuxF : Nat → List Char → List Char
  | 0, text => text
  | fuel + 1, text =>
    let pre := text.takeWhile (fun c => !(c == '{'))
    match text.dropWhile (fun c => !(c == '{')) with
    | [] => text
    | c :: tl =>
      match extractScan 0 false false (c :: tl) with
      | some js =>
        if pushCond js then pre ++ cleanAuxF fuel ((c :: tl).drop js.length)
        else pre ++ c :: cleanAuxF fuel tl
      | none => pre ++ c :: cleanAuxF fuel tl

/-- Collapse every run of newlines to a single newline
(`.replace(/\n+/g, "\n")`). -/
def collapseNlAux : Bool → List Char → List Char
  | _, [] => []
  | prevNl, c :: rest =>
    if c = '\n' then
      (if prevNl then collapseNlAux true rest else '\n' :: collapseNlAux true rest)
    else c :: collapseNlAux false rest

/-- Remove one leading newline if present (the `^\n` alternative of
`.replace(/^\n|\n$/g, "")`). -/
def dropLeadNl : List Char → List Char
  | '\n' :: r => r
  | other => other

/-- Remove one trailing newline if present (the `\n$` alternative). -/
def dropTrailNl (cs : List Char) : List Char :=
  match cs.reverse with
  | '\n' :: r => r.reverse
  | _ => cs

/-- The final normalization chain applied by `cleanToolsFromResponse` to its
result, whether or not anything was deleted. -/
def normalizeWS (cs : List Char) : List Char :=
  trimJS (dropTrailNl (dropLeadNl (collapseNlAux false cs)))

/-- `cleanToolsFromResponse(response)`. -/
def cleanToolsFromResponse (response : List Char) : List Char :=
  normalizeWS (cleanAuxF (response.length + 1) response)

/-! ### Models of `JSON.stringify` and template-string interpolation

The loop controller interpolates parsed values into template strings
(`String(x)` semantics) and serializes them with `JSON.stringify`, both
compact and with a two-space indent.  Recursion into arrays and objects is
driven by a fuel initialized with `sizeOf`, which strictly exceeds the
structural size of every nested value, so the zero-fuel branches are
unreachable.  Number rendering is the plain decimal form (integer when the
exponent is nonnegative, otherwise a fraction); the shortest-roundtrip float
formatting of JavaScript is not modelled, and no claim exercises it. -/

/-- Decimal digits of a natural number (fuel-based division loop). -/
def natDigitsAux : Nat → Nat → List Char
  | 0, _ => []
  | f + 1, n =>
    if n < 10 then [Char.ofNat (48 + n)]
    else natDigitsAux f (n / 10) ++ [Char.ofNat (48 + n % 10)]

/-- Decimal rendering of a natural number. -/
def natDigits (n : Nat) : List Char := natDigitsAux (n + 1) n

/-- Decimal rendering of an integer. -/
def renderInt (i : Int) : List Char :=
  if i < 0 then '-' :: natDigits (-i).toNat else natDigits i.toNat

/-- Decimal rendering of a mantissa/exponent number. -/
def renderNum (m e : Int) : List Char :=
  if 0 ≤ e then renderInt (m * (10 : Int) ^ e.toNat)
  else
    let n := (-e).toNat
    let am := if m < 0 then (-m).toNat else m.toNat
    let ip := am / 10 ^ n
    let fp := am % 10 ^ n
    let fdigits := (List.replicate (n - (natDigits fp).length) '0') ++ natDigits fp
    let core := if fp = 0 then natDigits ip else natDigits ip ++ '.' :: fdigits
    if m < 0 then '-' :: core else core

/-- One character of a JSON-stringified string. -/
def escJChar (c : Char) : List Char :=
  if c = '"' then ['\\', '"']
  else if c = '\\' then ['\\', '\\']
  else if c = '\n' then ['\\', 'n']
  else if c = '\r' then ['\\', 'r']
  else if c = '\t' then ['\\', 't']
  else if c = Char.ofNat 8 then ['\\', 'b']
  else if c = Char.ofNat 12 then ['\\', 'f']
  else if c.toNat < 32 then
    ['\\', 'u', '0', '0', Char.ofNat (if c.toNat / 16 < 10 then 48 + c.toNat / 16 else 87 + c.toNat / 16),
      Char.ofNat (if c.toNat % 16 < 10 then 48 + c.toNat % 16 else 87 + c.toNat % 16)]
  else [c]

/-- JSON-stringified string with surrounding quotes. -/
def jQuote (s : List Char) : List Char :=
  '"' :: s.foldr (fun c acc => escJChar c ++ acc) ['"']

/-- Join a list of strings with a separator. -/
def joinSep (sep : List Char) : List (List Char) → List Char
  | [] => []
  | [x] => x
  | x :: xs => x ++ sep ++ joinSep sep xs

mutual
/-- Compact `JSON.stringify`. -/
def jStringify : JVal → List Char
  | JVal.null => cl "null"
  | JVal.bool b => if b then cl "true" else cl "false"
  | JVal.num m e => renderNum m e
  | JVal.str s => jQuote s
  | JVal.arr xs => '[' :: joinSep [','] (jStringifyItems xs) ++ [']']
  | JVal.obj ms => '{' :: joinSep [','] (jStringifyMembers ms) ++ ['}']

/-- The serialized items of an array, in order. -/
def jStringifyItems : List JVal → List (List Char)
  | [] => []
  | x :: xs => jStringify x :: jStringifyItems xs

/-- The serialized `"key":value` members of an object, in order. -/
def jStringifyMembers : List (List Char × JVal) → List (List Char)
  | [] => []
  | kv :: ms => (jQuote kv.1 ++ ':' :: jStringify kv.2) :: jStringifyMembers ms
end

/-- Indentation for `JSON.stringify(v, null, 2)`. -/
def ind2 (depth : Nat) : List Char := List.replicate (2 * depth) ' '

mutual
/-- `JSON.stringify(v, null, 2)` at a given nesting depth. -/
def jStrInd : Nat → JVal → List Char
  | _, JVal.null => cl "null"
  | _, JVal.bool b => if b then cl "true" else cl "false"
  | _, JVal.num m e => renderNum m e
  | _, JVal.str s => jQuote s
  | depth, JVal.arr xs =>
    if xs.isEmpty then cl "[]"
    else
      '[' :: '\n' :: joinSep (cl ",\n") (jStrIndItems depth xs) ++
        '\n' :: ind2 depth ++ [']']
  | depth, JVal.obj ms =>
    if ms.isEmpty then cl "\x7b\x7d"
    else
      '{' :: '\n' :: joinSep (cl ",\n") (jStrIndMembers depth ms) ++
        '\n' :: ind2 depth ++ ['}']

/-- Indented array items (each on its own line at depth + 1). -/
def jStrIndItems : Nat → List JVal → List (List Char)
  | _, [] => []
  | depth, x :: xs => (ind2 (depth + 1) ++ jStrInd (depth + 1) x) :: jStrIndItems depth xs

/-- Indented `"key": value` members (each on its own line at depth + 1). -/
def jStrIndMembers : Nat → List (List Char × JVal) → List (List Char)
  | _, [] => []
  | depth, kv :: ms =>
    (ind2 (depth + 1) ++ jQuote kv.1 ++ ':' :: ' ' :: jStrInd (depth + 1) kv.2) ::
      jStrIndMembers depth ms
end

/-- `JSON.stringify(v, null, 2)`. -/
def jStringifyInd (v : JVal) : List Char := jStrInd 0 v

mutual
/-- Template-string interpolation `String(v)` of a parsed value: strings
verbatim, `null` renders as "null", arrays join their elements with commas
(null elements render empty), plain objects render "[object Object]". -/
def jsToString : JVal → List Char
  | JVal.null => cl "null"
  | JVal.bool b => if b then cl "true" else cl "false"
  | JVal.num m e => renderNum m e
  | JVal.str s => s
  | JVal.arr xs => joinSep [','] (jsToStringItems xs)
  | JVal.obj _ => cl "[object Object]"

/-- Array elements as rendered by `Array.prototype.toString` (null renders
empty). -/
def jsToStringItems : List JVal → List (List Char)
  | [] => []
  | JVal.null :: xs => [] :: jsToStringItems xs
  | x :: xs => jsToString x :: jsToStringItems xs
end

/-- Interpolation of a possibly-absent value (`undefined` renders as
"undefined"). -/
def jsToStringO : Option JVal → List Char
  | none => cl "undefined"
  | some v => jsToString v

/-- `JSON.stringify(x, null, 2)` of a possibly-absent value, interpolated
into a template (`JSON.stringify(undefined, ...)` is `undefined`, which the
template renders as "undefined"). -/
def jStringifyIndO : Option JVal → List Char
  | none => cl "undefined"
  | some v => jStringifyInd v

/-! ### The agentic loop controller (src/src/cli.ts, class ModaiCLI)

The collaborators of `handleChat` are packaged in `CliEnv`:
`gen message sysPrompt history` is the Provider Capability
(`generateResponseWithHistory`); a thrown provider error is its `.error`
case.  `tools` is the registry lookup (`ToolRegistry.get`): a registered
tool is a function from the `arguments` property (possibly absent) to a
result or a thrown value.  `confirm` is the answer the interactive
confirmation prompt (`promptForConfirmation`) produces for a given prompt
message.  `sysPrompt` abstracts the system prompt the `Modai` class builds
from the registry listing (its content never influences the modelled
control flow). -/

/-- A thrown JavaScript value: `isError` is `instanceof Error`, `message`
the `.message` property, `display` its `String(...)` rendering for
non-Error values. -/
structure JSErr where
  isError : Bool
  message : List Char
  display : List Char

/-- The conversion `error instanceof Error ? error.message : "Unknown error"`
used by `Modai.processRequest`. -/
def excMessage (e : JSErr) : List Char :=
  if e.isError then e.message else cl "Unknown error"

/-- The conversion `error instanceof Error ? error.message : String(error)`
used by the outer catch of `handleChat`. -/
def outerMsg (e : JSErr) : List Char :=
  if e.isError then e.message else e.display

/-- One conversation turn of the persistent message history. -/
inductive ChatRole where
  | user : ChatRole
  | assistant : ChatRole
deriving DecidableEq

/-- A `{role, content}` history entry. -/
structure ChatTurn where
  role : ChatRole
  content : List Char
deriving DecidableEq

/-- A `ModaiResponse` value `{success, data?, error?}`. -/
structure ToolResultR where
  success : Bool
  data : Option JVal
  error : Option (List Char)

/-- The collaborators of one CLI session (see section comment). -/
structure CliEnv where
  gen : List Char → List Char → List ChatTurn → Except JSErr (List Char)
  sysPrompt : List Char
  tools : List Char → Option (Option JVal → Except JSErr JVal)
  confirm : List Char → Bool

/-- `Modai.processRequest(request)`: reject a non-"modai" protocol, look the
tool up by its (string) name — a non-string `tool` value cannot match a
registered key — execute it, and convert a thrown value into a structured
failure, so this function itself never throws. -/
def processRequest (tools : List Char → Option (Option JVal → Except JSErr JVal))
    (req : JVal) : ToolResultR :=
  if !protocolModai req then ⟨false, none, some (cl "Invalid protocol")⟩
  else
    match jGet req (cl "tool") with
    | some (JVal.str nm) =>
      (match tools nm with
       | none => ⟨false, none, some (cl "Unknown tool: " ++ nm)⟩
       | some f =>
         match f (jGet req (cl "arguments")) with
         | Except.ok d => ⟨true, some d, none⟩
         | Except.error e => ⟨false, none, some (excMessage e)⟩)
    | other => ⟨false, none, some (cl "Unknown tool: " ++ jsToStringO other)⟩

/-- The prompt text `promptForConfirmation` is asked to confirm for one
directive (apostrophes built by code point to keep the literal faithful). -/
def confirmMessage (toolName : Option JVal) (args : Option JVal) : List Char :=
  cl "Execute tool " ++ Char.ofNat 39 :: jsToStringO toolName ++ Char.ofNat 39 ::
    cl " with arguments:\n" ++ jStringifyIndO args ++ cl "\nDo you want to proceed?"

/-- One element of the per-turn `toolResults` array: the `tool` property
read off the request, and the structured result recorded for it. -/
structure ToolCallRecord where
  tool : Option JVal
  result : ToolResultR

/-- Processing of one extracted directive inside the per-turn loop
(cli.ts lines 110–142): ask for confirmation; when confirmed, run
`processRequest` (whose own catch, together with the loop's inner catch,
turns any thrown value into a structured failure); when declined, record a
synthetic failure naming user cancellation without invoking anything. -/
def runOneRequest (tools : List Char → Option (Option JVal → Except JSErr JVal))
    (confirm : List Char → Bool) (req : JVal) : ToolCallRecord :=
  let nm := jGet req (cl "tool")
  if confirm (confirmMessage nm (jGet req (cl "arguments"))) then
    ⟨nm, processRequest tools req⟩
  else ⟨nm, ⟨false, none, some (cl "Tool execution cancelled by user.")⟩⟩

/-- The context line recorded for one tool result (cli.ts lines 162–233):
on success the parameters are re-looked-up in the response text by tool name
(`findToolRequestInResponse`), defaulting to `{}` when absent or falsy, and
the result payload is pretty-printed; on failure the line embeds the error
text. -/
def contextLine (response : List Char) (tr : ToolCallRecord) : List Char :=
  if tr.result.success then
    cl "You executed " ++ jsToStringO tr.tool ++ cl " tool with these parameters: " ++
      jStringify (match findToolRequestInResponse response tr.tool with
        | some o =>
          (match jGet o (cl "arguments") with
           | some a => if jTruthy a then a else JVal.obj []
           | none => JVal.obj [])
        | none => JVal.obj []) ++
      cl ". The result was: " ++ jStringifyIndO tr.result.data
  else
    cl "Tool " ++ jsToStringO tr.tool ++ cl " failed: " ++
      (match tr.result.error with
       | some e => e
       | none => cl "undefined")

/-- The follow-up message of cli.ts line 235: restates the prior response
and the joined context lines. -/
def followUpMessage (response : List Char) (ctxs : List (List Char)) : List Char :=
  cl "You are in an agentic loop. You previously said: \"" ++ response ++
    cl "\"\n\nThis led to tool executions with the following results:\n" ++
    joinSep (cl "\n") ctxs ++
    cl "\n\nNow, decide the next step. You can call more tools or provide a final response to the user."

/-- `Modai.chat(message)`: the user turn is appended to the history first;
then the provider is called with the message, the system prompt and the
already-extended history; only on success is the assistant turn appended.
A provider throw propagates with the user turn left in place. -/
def modaiChat (env : CliEnv) (hist : List ChatTurn) (message : List Char) :
    List ChatTurn × Except JSErr (List Char) :=
  let h1 := hist ++ [⟨ChatRole.user, message⟩]
  match env.gen message env.sysPrompt h1 with
  | Except.error e => (h1, Except.error e)
  | Except.ok r => (h1 ++ [⟨ChatRole.assistant, r⟩], Except.ok r)

/-- `Modai.chatWithContext(context)`: the provider sees a temporary history
with the context appended as a user turn, but only the assistant response is
pushed onto the persistent history. -/
def chatWithContext (env : CliEnv) (hist : List ChatTurn) (context : List Char) :
    List ChatTurn × Except JSErr (List Char) :=
  match env.gen context env.sysPrompt (hist ++ [⟨ChatRole.user, context⟩]) with
  | Except.error e => (hist, Except.error e)
  | Except.ok r => (hist ++ [⟨ChatRole.assistant, r⟩], Except.ok r)

/-- The outcome of one `handleChat` invocation: a final cleaned answer, the
max-turns warning carrying the last raw (never stripped) response, or the
outer catch with the displayed error text. -/
inductive ChatOutcome where
  | done : List Char → ChatOutcome
  | maxTurns : List Char → ChatOutcome
  | caught : List Char → ChatOutcome
deriving DecidableEq

/-- Whether the outcome is the max-turns warning. -/
def ChatOutcome.isMaxTurns : ChatOutcome → Bool
  | ChatOutcome.maxTurns _ => true
  | _ => false

/-- Whether the outcome is the outer catch (a fatal error for the invocation). -/
def ChatOutcome.isCaught : ChatOutcome → Bool
  | ChatOutcome.caught _ => true
  | _ => false

/-- The text carried by the outcome. -/
def ChatOutcome.otext : ChatOutcome → List Char
  | ChatOutcome.done t => t
  | ChatOutcome.maxTurns t => t
  | ChatOutcome.caught t => t

/-- Trace record of one executed loop turn: the response the directives were
extracted from, the extracted requests, the recorded results in execution
order, and the follow-up message sent to the provider. -/
structure TurnRecord where
  response : List Char
  requests : List JVal
  results : List ToolCallRecord
  followUp : List Char

/-- The `for (let turn = 0; turn < maxTurns; turn++)` body of `handleChat`
(cli.ts lines 105–243), with the remaining turn count as the recursion
argument.  Each iteration extracts directives from the current response,
processes them strictly in order via `List.map runOneRequest`, finishes with
the cleaned response when nothing was extracted, and otherwise builds the
context lines in the same order, sends the follow-up, and continues with the
new response; exhausting the count yields the max-turns warning carrying the
current raw response.  A provider throw surfaces as the `caught` outcome of
the surrounding try/catch. -/
def loopAux (env : CliEnv) : Nat → List Char → List ChatTurn →
    ChatOutcome × List ChatTurn × List TurnRecord
  | 0, response, hist => (ChatOutcome.maxTurns response, hist, [])
  | n + 1, response, hist =>
    let reqs := extractAndExecuteTools response
    let trs := reqs.map (runOneRequest env.tools env.confirm)
    if trs.isEmpty then (ChatOutcome.done (cleanToolsFromResponse response), hist, [])
    else
      let ctxs := trs.map (contextLine response)
      let fu := followUpMessage response ctxs
      let trec : TurnRecord := ⟨response, reqs, trs, fu⟩
      match chatWithContext env hist fu with
      | (h1, Except.error e) => (ChatOutcome.caught (outerMsg e), h1, [trec])
      | (h1, Except.ok r) =>
        match loopAux env n r h1 with
        | (o, h2, t) => (o, h2, trec :: t)

/-- `handleChat(message)`: the initial instruction is sent through
`Modai.chat`, then the loop runs with the fixed bound `maxTurns = 5`. -/
def handleChat (env : CliEnv) (hist : List ChatTurn) (message : List Char) :
    ChatOutcome × List ChatTurn × List TurnRecord :=
  match modaiChat env hist (cl "You are an AI agent. When the user asks for multiple actions, provide all the tool calls in a single response. User request: " ++ message) with
  | (h1, Except.error e) => (ChatOutcome.caught (outerMsg e), h1, [])
  | (h1, Except.ok r) => loopAux env 5 r h1

/-! ### Concrete fixtures used by witnesses and counterexamples -/

/-- A response consisting of exactly one well-formed directive. -/
def dirText : List Char :=
  cl "\x7b\"protocol\":\"modai\",\"tool\":\"t\",\"arguments\":\x7b\"a\":\"b\"\x7d\x7d"

/-- The parsed value of `dirText`. -/
def dirTextVal : JVal :=
  JVal.obj [(cl "protocol", JVal.str (cl "modai")), (cl "tool", JVal.str (cl "t")),
    (cl "arguments", JVal.obj [(cl "a", JVal.str (cl "b"))])]

/-- A session whose provider always answers with `dirText` and never throws,
with an empty registry and an always-yes confirmation oracle. -/
def envAlwaysDir : CliEnv :=
  ⟨fun _ _ _ => Except.ok dirText, [], fun _ => none, fun _ => true⟩

/-- Whether an `Except` computation returned normally. -/
def exceptOk {α β : Type} : Except α β → Bool
  | Except.ok _ => true
  | Except.error _ => false

/-- A session whose provider always answers with `dirText` but whose only
registered tool always throws. -/
def envThrowTool : CliEnv :=
  ⟨fun _ _ _ => Except.ok dirText, [],
    fun nm => if nm = cl "t" then some (fun _ => Except.error ⟨true, cl "boom", cl "boom"⟩)
      else none,
    fun _ => true⟩

/-- A session whose provider always throws. -/
def envThrowGen : CliEnv :=
  ⟨fun _ _ _ => Except.error ⟨true, cl "transport", cl "transport"⟩, [],
    fun _ => none, fun _ => true⟩

/-! ### Helper lemmas about the loop controller -/

/-- A parsed object with `protocol:"modai"` but a string-valued (truthy,
non-mapping) `arguments`, used to refute the stricter reading of the filter. -/
def strArgsText : List Char :=
  cl "\x7b\"protocol\":\"modai\",\"tool\":\"x\",\"arguments\":\"hello\"\x7d"

/-- The parsed value of `strArgsText`. -/
def strArgsVal : JVal :=
  JVal.obj [(cl "protocol", JVal.str (cl "modai")), (cl "tool", JVal.str (cl "x")),
    (cl "arguments", JVal.str (cl "hello"))]

/-- A directive whose `arguments` is the empty string (falsy), which the
filter does drop. -/
def emptyArgsText : List Char :=
  cl "\x7b\"protocol\":\"modai\",\"tool\":\"x\",\"arguments\":\"\"\x7d"

/-- The parsed value of `emptyArgsText`. -/
def emptyArgsVal : JVal :=
  JVal.obj [(cl "protocol", JVal.str (cl "modai")), (cl "tool", JVal.str (cl "x")),
    (cl "arguments", JVal.str [])]

/-- Whether a possibly-absent property is a string value. -/
def isStrO : Option JVal → Bool
  | some (JVal.str _) => true
  | _ => false

/-- A response carrying two adjacent directives with the SAME tool name and
different arguments. -/
def dupToolText : List Char :=
  cl "\x7b\"protocol\":\"modai\",\"tool\":\"t\",\"arguments\":\x7b\"a\":\"1\"\x7d\x7d\x7b\"protocol\":\"modai\",\"tool\":\"t\",\"arguments\":\x7b\"a\":\"2\"\x7d\x7d"

/-- The second parsed request of `dupToolText` (its own arguments map `a`
to "2"). -/
def dupVal2 : JVal :=
  JVal.obj [(cl "protocol", JVal.str (cl "modai")), (cl "tool", JVal.str (cl "t")),
    (cl "arguments", JVal.obj [(cl "a", JVal.str (cl "2"))])]

/-- A registry whose tool "t" succeeds with a null payload. -/
def toolsOkT : List Char → Option (Option JVal → Except JSErr JVal) :=
  fun nm => if nm = cl "t" then some (fun _ => Except.ok JVal.null) else none

/-- A response carrying two directives with distinct tool names. -/
def distToolText : List Char :=
  cl "\x7b\"protocol\":\"modai\",\"tool\":\"t\",\"arguments\":\x7b\"a\":\"1\"\x7d\x7d\x7b\"protocol\":\"modai\",\"tool\":\"u\",\"arguments\":\x7b\"a\":\"2\"\x7d\x7d"

/-- The first parsed request of `distToolText`. -/
def distVal1 : JVal :=
  JVal.obj [(cl "protocol", JVal.str (cl "modai")), (cl "tool", JVal.str (cl "t")),
    (cl "arguments", JVal.obj [(cl "a", JVal.str (cl "1"))])]

/-- The second parsed request of `distToolText`. -/
def distVal2 : JVal :=
  JVal.obj [(cl "protocol", JVal.str (cl "modai")), (cl "tool", JVal.str (cl "u")),
    (cl "arguments", JVal.obj [(cl "a", JVal.str (cl "2"))])]

/-- Decidable premise of claim C2: at no position of the text does the
balanced-brace scan extract a span that the parse cascade recognizes as a
`protocol:"modai"` object (positions past the end scan nothing). -/
def noModaiSpans (text : List Char) : Bool :=
  (List.range (text.length + 1)).all (fun i =>
    match extractScan 0 false false (text.drop i) with
    | some js => !pushCond js
    | none => true)

/-- A character that may sit unescaped inside a JSON string with no effect
on the balanced scan: not a quote, not a backslash, not a control
character.  Braces are deliberately allowed. -/
def plainChar (c : Char) : Bool :=
  !(c == '"') && (!(c == '\\') && !(decide (c.toNat < 32)))

/-- A quoted JSON string literal around the given (escape-free) content. -/
def qt (x : List Char) : List Char := '"' :: x ++ ['"']

/-- The canonical one-argument directive text
`{"protocol":"modai","tool":T,"arguments":{K:S}}` with the tool name, the
argument key and the argument value as parameters. -/
def dirChars (t k s : List Char) : List Char :=
  '{' :: qt (cl "protocol") ++ ':' :: qt (cl "modai") ++ ',' :: qt (cl "tool") ++
    ':' :: qt t ++ ',' :: qt (cl "arguments") ++ ':' :: '{' :: qt k ++ ':' :: qt s ++
    ['}', '}']

/-- The parsed value of `dirChars t k s`. -/
def dirVal (t k s : List Char) : JVal :=
  JVal.obj [(cl "protocol", JVal.str (cl "modai")), (cl "tool", JVal.str t),
    (cl "arguments", JVal.obj [(k, JVal.str s)])]

/-- The extracted value of `dirText`. -/
theorem extract_dirText : extractAndExecuteTools dirText = [dirTextVal] := by rfl

/-- The loop records at most as many executed turns as its remaining count. -/
theorem loopAux_trace_le (env : CliEnv) :
    ∀ (n : Nat) (resp : List Char) (hist : List ChatTurn),
      (loopAux env n resp hist).2.2.length ≤ n := by
  intro n
  induction n with
  | zero => intro resp hist; simp [loopAux]
  | succ n ih =>
    intro resp hist
    simp only [loopAux]
    by_cases hemp : ((extractAndExecuteTools resp).map
        (runOneRequest env.tools env.confirm)).isEmpty
    · simp [hemp]
    · simp only [hemp, Bool.false_eq_true, if_false]
      rcases hcw : chatWithContext env hist (followUpMessage resp
          (((extractAndExecuteTools resp).map (runOneRequest env.tools env.confirm)).map
            (contextLine resp))) with ⟨h1, res⟩
      cases res with
      | error e => simp
      | ok r =>
        rcases hl : loopAux env n r h1 with ⟨o, h2, t⟩
        have := ih r h1
        rw [hl] at this
        simpa [hl] using Nat.succ_le_succ this

/-- With a never-throwing provider the loop never reaches the outer catch. -/
theorem loopAux_not_caught (env : CliEnv)
    (henv : ∀ m h, exceptOk (env.gen m env.sysPrompt h) = true) :
    ∀ (n : Nat) (resp : List Char) (hist : List ChatTurn),
      (loopAux env n resp hist).1.isCaught = false := by
  intro n
  induction n with
  | zero => intro resp hist; simp [loopAux, ChatOutcome.isCaught]
  | succ n ih =>
    intro resp hist
    simp only [loopAux]
    by_cases hemp : ((extractAndExecuteTools resp).map
        (runOneRequest env.tools env.confirm)).isEmpty
    · simp [hemp, ChatOutcome.isCaught]
    · simp only [hemp, Bool.false_eq_true, if_false]
      have hok := henv (followUpMessage resp
          (((extractAndExecuteTools resp).map (runOneRequest env.tools env.confirm)).map
            (contextLine resp)))
        (hist ++ [⟨ChatRole.user, followUpMessage resp
          (((extractAndExecuteTools resp).map (runOneRequest env.tools env.confirm)).map
            (contextLine resp))⟩])
      rcases hg : env.gen (followUpMessage resp
          (((extractAndExecuteTools resp).map (runOneRequest env.tools env.confirm)).map
            (contextLine resp)))
          env.sysPrompt
          (hist ++ [⟨ChatRole.user, followUpMessage resp
            (((extractAndExecuteTools resp).map (runOneRequest env.tools env.confirm)).map
              (contextLine resp))⟩]) with e | r
      · rw [hg] at hok; simp [exceptOk] at hok
      · simp only [chatWithContext, hg]
        rcases hl : loopAux env n r (hist ++ [⟨ChatRole.assistant, r⟩]) with ⟨o, h2, t⟩
        have := ih r (hist ++ [⟨ChatRole.assistant, r⟩])
        rw [hl] at this
        simpa [hl] using this

/-- With a provider that never throws and always answers with directive-
carrying text, the loop runs its full count: the outcome is the max-turns
warning, exactly `n` executed turns are recorded, the final history ends
with the raw text carried by the outcome, and that text still contains
directives. -/
theorem loopAux_alldir (env : CliEnv)
    (henv : ∀ m h, exceptOk (env.gen m env.sysPrompt h) = true)
    (hdir : ∀ m h r, env.gen m env.sysPrompt h = Except.ok r →
      extractAndExecuteTools r ≠ []) :
    ∀ (n : Nat) (resp : List Char) (hist : List ChatTurn),
      extractAndExecuteTools resp ≠ [] →
      hist.getLast? = some ⟨ChatRole.assistant, resp⟩ →
      (loopAux env n resp hist).1.isMaxTurns = true ∧
      (loopAux env n resp hist).2.2.length = n ∧
      (loopAux env n resp hist).2.1.getLast? =
        some ⟨ChatRole.assistant, (loopAux env n resp hist).1.otext⟩ ∧
      extractAndExecuteTools (loopAux env n resp hist).1.otext ≠ [] := by
  intro n
  induction n with
  | zero =>
    intro resp hist hne hlast
    simp [loopAux, ChatOutcome.isMaxTurns, ChatOutcome.otext, hlast, hne]
  | succ n ih =>
    intro resp hist hne hlast
    simp only [loopAux]
    have hemp : ((extractAndExecuteTools resp).map
        (runOneRequest env.tools env.confirm)).isEmpty = false := by
      rcases hx : extractAndExecuteTools resp with _ | ⟨a, l⟩
      · exact absurd hx hne
      · simp
    simp only [hemp, Bool.false_eq_true, if_false]
    have hok := henv (followUpMessage resp
        (((extractAndExecuteTools resp).map (runOneRequest env.tools env.confirm)).map
          (contextLine resp)))
      (hist ++ [⟨ChatRole.user, followUpMessage resp
        (((extractAndExecuteTools resp).map (runOneRequest env.tools env.confirm)).map
          (contextLine resp))⟩])
    rcases hg : env.gen (followUpMessage resp
        (((extractAndExecuteTools resp).map (runOneRequest env.tools env.confirm)).map
          (contextLine resp)))
        env.sysPrompt
        (hist ++ [⟨ChatRole.user, followUpMessage resp
          (((extractAndExecuteTools resp).map (runOneRequest env.tools env.confirm)).map
            (contextLine resp))⟩]) with e | r
    · rw [hg] at hok; simp [exceptOk] at hok
    · simp only [chatWithContext, hg]
      rcases hl : loopAux env n r (hist ++ [⟨ChatRole.assistant, r⟩]) with ⟨o, h2, t⟩
      have hrec := ih r (hist ++ [⟨ChatRole.assistant, r⟩]) (hdir _ _ _ hg)
        (by simp)
      rw [hl] at hrec
      simpa [hl] using hrec

/-- Whenever the loop ends in the max-turns warning, the final history ends
with the warning text as a raw assistant turn (nothing strips it). -/
theorem loopAux_maxTurns_last (env : CliEnv) :
    ∀ (n : Nat) (resp : List Char) (hist : List ChatTurn),
      hist.getLast? = some ⟨ChatRole.assistant, resp⟩ →
      (loopAux env n resp hist).1.isMaxTurns = true →
      (loopAux env n resp hist).2.1.getLast? =
        some ⟨ChatRole.assistant, (loopAux env n resp hist).1.otext⟩ := by
  intro n
  induction n with
  | zero =>
    intro resp hist hlast _
    simpa [loopAux, ChatOutcome.otext] using hlast
  | succ n ih =>
    intro resp hist hlast hmax
    simp only [loopAux] at hmax ⊢
    by_cases hemp : ((extractAndExecuteTools resp).map
        (runOneRequest env.tools env.confirm)).isEmpty
    · simp [hemp, ChatOutcome.isMaxTurns] at hmax
    · simp only [hemp, Bool.false_eq_true, if_false] at hmax ⊢
      rcases hg : env.gen (followUpMessage resp
          (((extractAndExecuteTools resp).map (runOneRequest env.tools env.confirm)).map
            (contextLine resp)))
          env.sysPrompt
          (hist ++ [⟨ChatRole.user, followUpMessage resp
            (((extractAndExecuteTools resp).map (runOneRequest env.tools env.confirm)).map
              (contextLine resp))⟩]) with e | r
      · simp only [chatWithContext, hg] at hmax
        simp [ChatOutcome.isMaxTurns] at hmax
      · simp only [chatWithContext, hg] at hmax ⊢
        rcases hl : loopAux env n r (hist ++ [⟨ChatRole.assistant, r⟩]) with ⟨o, h2, t⟩
        rw [hl] at hmax
        have := ih r (hist ++ [⟨ChatRole.assistant, r⟩]) (by simp)
        rw [hl] at this
        simpa [hl] using this (by simpa using hmax)

/-- An infix of a middle segment is an infix of any surrounding concatenation. -/
theorem infix_embed {α : Type} {x m : List α} (h : x <:+: m) (l r : List α) :
    x <:+: l ++ m ++ r := by
  obtain ⟨s, t, hst⟩ := h
  exact ⟨l ++ s, t ++ r, by simp [← hst, List.append_assoc]⟩

/-- Every element of a joined list is an infix of the join. -/
theorem mem_joinSep_infix {x : List Char} (sep : List Char) :
    ∀ l : List (List Char), x ∈ l → x <:+: joinSep sep l := by
  intro l
  induction l with
  | nil => intro hm; simp at hm
  | cons y ys ih =>
    intro hm
    rcases List.mem_cons.mp hm with rfl | hm2
    · cases ys with
      | nil => exact List.infix_refl x
      | cons z zs => exact ⟨[], sep ++ joinSep sep (z :: zs), by simp [joinSep, List.append_assoc]⟩
    · cases ys with
      | nil => simp at hm2
      | cons z zs =>
        have h2 := infix_embed (ih hm2) (y ++ sep) ([] : List Char)
        simpa [joinSep, List.append_assoc] using h2

/-- A context line of a turn is embedded in that turn's follow-up message. -/
theorem contextLine_infix_followUp (response : List Char) (ctxs : List (List Char))
    (x : List Char) (hm : x ∈ ctxs) : x <:+: followUpMessage response ctxs := by
  have hj := mem_joinSep_infix (cl "\n") ctxs hm
  have h2 := infix_embed hj
    (cl "You are in an agentic loop. You previously said: \"" ++ response ++
      cl "\"\n\nThis led to tool executions with the following results:\n")
    (cl "\n\nNow, decide the next step. You can call more tools or provide a final response to the user.")
  simpa [followUpMessage, List.append_assoc] using h2

/-- Claim C4: the agentic loop of `handleChat` is bounded by 5 turns for
every provider behaviour (the trace of executed turns is never longer than
5; termination is inherent in the bounded recursion of the model); and
against a provider that never throws and emits a directive-carrying response
to every request, the loop executes exactly 5 extract/execute turns and ends
in the aborted-max-turns outcome instead of iterating further or failing. -/
theorem handleChat_bounded_five_turns (env : CliEnv) (hist : List ChatTurn)
    (msg : List Char) :
    (handleChat env hist msg).2.2.length ≤ 5 ∧
    ((∀ m h, exceptOk (env.gen m env.sysPrompt h) = true) →
     (∀ m h r, env.gen m env.sysPrompt h = Except.ok r →
        extractAndExecuteTools r ≠ []) →
     ((handleChat env hist msg).1.isMaxTurns = true ∧
      (handleChat env hist msg).2.2.length = 5)) := by
  constructor
  · simp only [handleChat, modaiChat]
    rcases hg : env.gen (cl "You are an AI agent. When the user asks for multiple actions, provide all the tool calls in a single response. User request: " ++ msg)
        env.sysPrompt (hist ++ [⟨ChatRole.user,
          cl "You are an AI agent. When the user asks for multiple actions, provide all the tool calls in a single response. User request: " ++ msg⟩]) with e | r
    · rw [hg]; simp
    · rw [hg]; exact loopAux_trace_le env 5 r _
  · intro henv hdir
    simp only [handleChat, modaiChat]
    have hok := henv (cl "You are an AI agent. When the user asks for multiple actions, provide all the tool calls in a single response. User request: " ++ msg)
      (hist ++ [⟨ChatRole.user,
        cl "You are an AI agent. When the user asks for multiple actions, provide all the tool calls in a single response. User request: " ++ msg⟩])
    rcases hg : env.gen (cl "You are an AI agent. When the user asks for multiple actions, provide all the tool calls in a single response. User request: " ++ msg)
        env.sysPrompt (hist ++ [⟨ChatRole.user,
          cl "You are an AI agent. When the user asks for multiple actions, provide all the tool calls in a single response. User request: " ++ msg⟩]) with e | r
    · rw [hg] at hok; simp [exceptOk] at hok
    · rw [hg]
      have h5 := loopAux_alldir env henv hdir 5 r
        ((hist ++ [⟨ChatRole.user,
          cl "You are an AI agent. When the user asks for multiple actions, provide all the tool calls in a single response. User request: " ++ msg⟩]) ++
          [⟨ChatRole.assistant, r⟩])
        (hdir _ _ _ hg) (by simp)
      exact ⟨h5.1, h5.2.1⟩

/-- Witness for C4 at a concrete always-directive provider stub. -/
theorem handleChat_bounded_five_turns_witness :
    (handleChat envAlwaysDir [] (cl "hi")).2.2.length ≤ 5 ∧
    ((handleChat envAlwaysDir [] (cl "hi")).1.isMaxTurns = true ∧
     (handleChat envAlwaysDir [] (cl "hi")).2.2.length = 5) :=
  ⟨(handleChat_bounded_five_turns envAlwaysDir [] (cl "hi")).1,
   (handleChat_bounded_five_turns envAlwaysDir [] (cl "hi")).2
     (fun _ _ => rfl)
     (fun _ _ r hr => by
       cases hr
       rw [extract_dirText]
       exact List.cons_ne_nil _ _)⟩

/-- Claim C5: when `handleChat` ends in the max-turns outcome, that outcome
is the non-fatal warning (not the outer catch), and the text it carries is
the last raw provider response, left in the conversation history as the
final assistant turn without any directive stripping applied. -/
theorem handleChat_maxTurns_raw_outcome (env : CliEnv) (hist : List ChatTurn)
    (msg : List Char) :
    (handleChat env hist msg).1.isMaxTurns = true →
    ((handleChat env hist msg).1.isCaught = false ∧
     (handleChat env hist msg).2.1.getLast? =
       some ⟨ChatRole.assistant, (handleChat env hist msg).1.otext⟩) := by
  intro hmax
  constructor
  · rcases ho : (handleChat env hist msg).1 with t | t | t <;>
      simp [ho, ChatOutcome.isMaxTurns, ChatOutcome.isCaught] at hmax ⊢
  · simp only [handleChat, modaiChat] at hmax ⊢
    rcases hg : env.gen (cl "You are an AI agent. When the user asks for multiple actions, provide all the tool calls in a single response. User request: " ++ msg)
        env.sysPrompt (hist ++ [⟨ChatRole.user,
          cl "You are an AI agent. When the user asks for multiple actions, provide all the tool calls in a single response. User request: " ++ msg⟩]) with e | r
    · rw [hg] at hmax; simp [ChatOutcome.isMaxTurns] at hmax
    · rw [hg] at hmax
      rw [hg]
      exact loopAux_maxTurns_last env 5 r _ (by simp) hmax

/-- Witness for C5 at a concrete always-directive provider stub. -/
theorem handleChat_maxTurns_raw_outcome_witness :
    (handleChat envAlwaysDir [] (cl "hi")).1.isCaught = false ∧
    (handleChat envAlwaysDir [] (cl "hi")).2.1.getLast? =
      some ⟨ChatRole.assistant, (handleChat envAlwaysDir [] (cl "hi")).1.otext⟩ :=
  handleChat_maxTurns_raw_outcome envAlwaysDir [] (cl "hi") (by rfl)

/-- Claim C10: `Modai.chat` pushes the user turn onto the persistent history
before calling the provider and does not roll it back: when the provider
throws, the resulting history is exactly the previous history plus that one
user turn (no assistant turn), and the error propagates. -/
theorem chat_no_rollback (env : CliEnv) (hist : List ChatTurn) (msg : List Char)
    (e : JSErr)
    (hthrow : env.gen msg env.sysPrompt (hist ++ [⟨ChatRole.user, msg⟩]) =
      Except.error e) :
    modaiChat env hist msg = (hist ++ [⟨ChatRole.user, msg⟩], Except.error e) := by
  simp [modaiChat, hthrow]

/-- Witness for C10 at a concrete provider stub that always throws. -/
theorem chat_no_rollback_witness :
    modaiChat envThrowGen [] (cl "hi") =
      ([⟨ChatRole.user, cl "hi"⟩], Except.error ⟨true, cl "transport", cl "transport"⟩) := by
  have h := chat_no_rollback envThrowGen [] (cl "hi")
    ⟨true, cl "transport", cl "transport"⟩ rfl
  simpa using h

/-- Claim C6: a tool invocation that throws (here: the registered tool
function returns `Except.error e`) is caught and converted into the
structured failed result `{success: false, error: message}`; the context
line recorded for it is the failure line embedding that text; that line is
folded into the follow-up message of any turn whose results contain the
record; and with a provider that never throws, `handleChat` never ends in
the outer catch — a tool failure neither aborts the loop nor propagates. -/
theorem tool_throw_caught_and_converted (env : CliEnv) (req : JVal) (nm : List Char)
    (f : Option JVal → Except JSErr JVal) (e : JSErr) (response : List Char)
    (trs : List ToolCallRecord) (hist : List ChatTurn) (msg : List Char)
    (hp : protocolModai req = true)
    (ht : jGet req (cl "tool") = some (JVal.str nm))
    (hf : env.tools nm = some f)
    (he : f (jGet req (cl "arguments")) = Except.error e)
    (hc : env.confirm (confirmMessage (jGet req (cl "tool"))
      (jGet req (cl "arguments"))) = true)
    (hm : runOneRequest env.tools env.confirm req ∈ trs)
    (henv : ∀ m h, exceptOk (env.gen m env.sysPrompt h) = true) :
    runOneRequest env.tools env.confirm req =
      ⟨some (JVal.str nm), ⟨false, none, some (excMessage e)⟩⟩ ∧
    contextLine response (runOneRequest env.tools env.confirm req) =
      cl "Tool " ++ nm ++ cl " failed: " ++ excMessage e ∧
    (cl "Tool " ++ nm ++ cl " failed: " ++ excMessage e) <:+:
      followUpMessage response (trs.map (contextLine response)) ∧
    (handleChat env hist msg).1.isCaught = false := by
  have hrun : runOneRequest env.tools env.confirm req =
      ⟨some (JVal.str nm), ⟨false, none, some (excMessage e)⟩⟩ := by
    simp only [runOneRequest]
    rw [hc]
    simp [processRequest, hp, ht, hf, he]
  have hline : contextLine response (runOneRequest env.tools env.confirm req) =
      cl "Tool " ++ nm ++ cl " failed: " ++ excMessage e := by
    rw [hrun]
    simp [contextLine, jsToStringO, jsToString]
  refine ⟨hrun, hline, ?_, ?_⟩
  · have : contextLine response (runOneRequest env.tools env.confirm req) ∈
        trs.map (contextLine response) := List.mem_map_of_mem _ hm
    rw [hline] at this
    exact contextLine_infix_followUp response _ _ this
  · simp only [handleChat, modaiChat]
    have hok := henv (cl "You are an AI agent. When the user asks for multiple actions, provide all the tool calls in a single response. User request: " ++ msg)
      (hist ++ [⟨ChatRole.user,
        cl "You are an AI agent. When the user asks for multiple actions, provide all the tool calls in a single response. User request: " ++ msg⟩])
    rcases hg : env.gen (cl "You are an AI agent. When the user asks for multiple actions, provide all the tool calls in a single response. User request: " ++ msg)
        env.sysPrompt (hist ++ [⟨ChatRole.user,
          cl "You are an AI agent. When the user asks for multiple actions, provide all the tool calls in a single response. User request: " ++ msg⟩]) with e2 | r
    · rw [hg] at hok; simp [exceptOk] at hok
    · rw [hg]; exact loopAux_not_caught env henv 5 r _

/-- Witness for C6 at a concrete session whose single registered tool
always throws. -/
theorem tool_throw_caught_and_converted_witness :
    envThrowTool.confirm (confirmMessage (jGet dirTextVal (cl "tool"))
      (jGet dirTextVal (cl "arguments"))) = true ∧
    (runOneRequest envThrowTool.tools envThrowTool.confirm dirTextVal =
      ⟨some (JVal.str (cl "t")),
        ⟨false, none, some (excMessage ⟨true, cl "boom", cl "boom"⟩)⟩⟩ ∧
     contextLine dirText (runOneRequest envThrowTool.tools envThrowTool.confirm dirTextVal) =
      cl "Tool " ++ cl "t" ++ cl " failed: " ++ excMessage ⟨true, cl "boom", cl "boom"⟩ ∧
     (cl "Tool " ++ cl "t" ++ cl " failed: " ++ excMessage ⟨true, cl "boom", cl "boom"⟩) <:+:
      followUpMessage dirText
        ([runOneRequest envThrowTool.tools envThrowTool.confirm dirTextVal].map
          (contextLine dirText)) ∧
     (handleChat envThrowTool [] (cl "hi")).1.isCaught = false) :=
  ⟨rfl, tool_throw_caught_and_converted envThrowTool dirTextVal (cl "t")
    (fun _ => Except.error ⟨true, cl "boom", cl "boom"⟩) ⟨true, cl "boom", cl "boom"⟩
    dirText _ [] (cl "hi") rfl rfl rfl rfl rfl (List.mem_singleton.mpr rfl)
    (fun _ _ => rfl)⟩

/-- Claim C7: a declined confirmation yields the synthetic failed result
naming user cancellation, without invoking any tool (the record is the same
for every registry), and that record is folded into the follow-up context
through the same failure line a tool execution failure would produce. -/
theorem declined_confirmation_synthetic_failure
    (tools tools2 : List Char → Option (Option JVal → Except JSErr JVal))
    (confirm : List Char → Bool) (req : JVal) (response : List Char)
    (trs : List ToolCallRecord)
    (hc : confirm (confirmMessage (jGet req (cl "tool"))
      (jGet req (cl "arguments"))) = false)
    (hm : runOneRequest tools confirm req ∈ trs) :
    runOneRequest tools confirm req =
      ⟨jGet req (cl "tool"),
        ⟨false, none, some (cl "Tool execution cancelled by user.")⟩⟩ ∧
    runOneRequest tools confirm req = runOneRequest tools2 confirm req ∧
    contextLine response (runOneRequest tools confirm req) =
      cl "Tool " ++ jsToStringO (jGet req (cl "tool")) ++ cl " failed: " ++
        cl "Tool execution cancelled by user." ∧
    (cl "Tool " ++ jsToStringO (jGet req (cl "tool")) ++ cl " failed: " ++
      cl "Tool execution cancelled by user.") <:+:
      followUpMessage response (trs.map (contextLine response)) := by
  have hrun : runOneRequest tools confirm req =
      ⟨jGet req (cl "tool"),
        ⟨false, none, some (cl "Tool execution cancelled by user.")⟩⟩ := by
    simp [runOneRequest, hc]
  have hrun2 : runOneRequest tools2 confirm req =
      ⟨jGet req (cl "tool"),
        ⟨false, none, some (cl "Tool execution cancelled by user.")⟩⟩ := by
    simp [runOneRequest, hc]
  have hline : contextLine response (runOneRequest tools confirm req) =
      cl "Tool " ++ jsToStringO (jGet req (cl "tool")) ++ cl " failed: " ++
        cl "Tool execution cancelled by user." := by
    rw [hrun]; simp [contextLine]
  refine ⟨hrun, by rw [hrun, hrun2], hline, ?_⟩
  have : contextLine response (runOneRequest tools confirm req) ∈
      trs.map (contextLine response) := List.mem_map_of_mem _ hm
  rw [hline] at this
  exact contextLine_infix_followUp response _ _ this

/-- Witness for C7 at a concrete declined confirmation. -/
theorem declined_confirmation_synthetic_failure_witness :
    (fun _ : List Char => false) (confirmMessage (jGet dirTextVal (cl "tool"))
      (jGet dirTextVal (cl "arguments"))) = false ∧
    (runOneRequest envThrowTool.tools (fun _ => false) dirTextVal =
      ⟨jGet dirTextVal (cl "tool"),
        ⟨false, none, some (cl "Tool execution cancelled by user.")⟩⟩ ∧
     runOneRequest envThrowTool.tools (fun _ => false) dirTextVal =
      runOneRequest (fun _ => none) (fun _ => false) dirTextVal ∧
     contextLine dirText (runOneRequest envThrowTool.tools (fun _ => false) dirTextVal) =
      cl "Tool " ++ jsToStringO (jGet dirTextVal (cl "tool")) ++ cl " failed: " ++
        cl "Tool execution cancelled by user." ∧
     (cl "Tool " ++ jsToStringO (jGet dirTextVal (cl "tool")) ++ cl " failed: " ++
       cl "Tool execution cancelled by user.") <:+:
      followUpMessage dirText
        ([runOneRequest envThrowTool.tools (fun _ => false) dirTextVal].map
          (contextLine dirText))) :=
  ⟨rfl, declined_confirmation_synthetic_failure envThrowTool.tools (fun _ => none)
    (fun _ => false) dirTextVal dirText _ rfl (List.mem_singleton.mpr rfl)⟩

/-! ### Claims about directive validation (C3, C9) -/

/-- Counterexample to claim C3 as stated: a parsed candidate whose
`arguments` value is a (non-empty) string rather than an object-like mapping
is NOT omitted by `extractAndExecuteTools` — JavaScript truthiness keeps it. -/
theorem extract_keeps_truthy_nonmapping_arguments :
    extractAndExecuteTools strArgsText = [strArgsVal] := by rfl

/-- Claim C3, amended: a parsed candidate is kept by
`extractAndExecuteTools` exactly when its `protocol` field is the string
"modai" and its `tool` and `arguments` fields are present and truthy in the
JavaScript sense; a missing or falsy field (absent, empty string, 0, false,
null) is omitted, but a truthy non-string `tool` or truthy non-mapping
`arguments` is kept. -/
theorem extract_filter_characterization (response : List Char) (req : JVal)
    (hmem : req ∈ parseJsonObjects response) :
    req ∈ extractAndExecuteTools response ↔
      (protocolModai req = true ∧ truthyO (jGet req (cl "tool")) = true ∧
       truthyO (jGet req (cl "arguments")) = true) := by
  constructor
  · intro hin
    have := (List.mem_filter.mp hin).2
    simp only [Bool.and_eq_true] at this
    exact ⟨this.1, this.2.1, this.2.2⟩
  · intro ⟨h1, h2, h3⟩
    exact List.mem_filter.mpr ⟨hmem, by simp [h1, h2, h3]⟩

/-- Witness for the amended C3: the empty-string-arguments directive is
parsed but dropped by the filter. -/
theorem extract_filter_characterization_witness :
    emptyArgsVal ∈ parseJsonObjects emptyArgsText ∧
    (emptyArgsVal ∈ extractAndExecuteTools emptyArgsText ↔
      (protocolModai emptyArgsVal = true ∧
       truthyO (jGet emptyArgsVal (cl "tool")) = true ∧
       truthyO (jGet emptyArgsVal (cl "arguments")) = true)) := by
  have hmem : emptyArgsVal ∈ parseJsonObjects emptyArgsText := by
    rw [show parseJsonObjects emptyArgsText = [emptyArgsVal] from rfl]
    exact List.mem_singleton.mpr rfl
  exact ⟨hmem, extract_filter_characterization emptyArgsText emptyArgsVal hmem⟩

/-- A successful quoted-value match captures at least one character (the
pattern requires one-or-more non-quote characters). -/
theorem keyStrMatchAt_ne_nil (key cs cap : List Char)
    (h : keyStrMatchAt key cs = some cap) : cap ≠ [] := by
  simp only [keyStrMatchAt] at h
  repeat' split at h
  all_goals simp_all
  rintro rfl
  simp_all

/-- A successful leftmost search comes from a successful match at some
suffix. -/
theorem scanFirst_some (f : List Char → Option (List Char)) :
    ∀ (text x : List Char), scanFirst f text = some x → ∃ s, f s = some x := by
  intro text
  induction text with
  | nil => intro x h; exact ⟨[], h⟩
  | cons c rest ih =>
    intro x h
    simp only [scanFirst] at h
    rcases hf : f (c :: rest) with _ | y
    · rw [hf] at h; exact ih x h
    · rw [hf] at h
      simp at h
      exact ⟨c :: rest, by rw [hf, h]⟩

/-- A successful arguments-region match captures a brace-delimited region. -/
theorem argsMatchAt_shape (cs cap : List Char)
    (h : argsMatchAt cs = some cap) : ∃ inner, cap = '{' :: inner ++ ['}'] := by
  simp only [argsMatchAt] at h
  repeat' split at h
  all_goals simp_all
  exact ⟨_, h.symm⟩

/-- A one-step parse of a brace-led candidate, when it succeeds, yields an
object value. -/
theorem jval?_brace_obj (f : Nat) (rest : List Char) (w : JVal) (r : List Char)
    (h : jval? (f + 1) ('{' :: rest) = some (w, r)) : ∃ ms, w = JVal.obj ms := by
  simp only [jval?] at h
  rw [show skipJWs ('{' :: rest) = '{' :: rest from rfl] at h
  repeat' split at h
  all_goals try (exfalso; simp_all; done)
  · injection h with h2
    cases h2
    exact ⟨[], rfl⟩
  · obtain ⟨p, hp1, hp2⟩ := Option.map_eq_some'.mp h
    cases hp2
    exact ⟨p.1, rfl⟩

/-- A strict parse of a brace-led candidate, when it succeeds, yields an
object value. -/
theorem jsonParse_brace_is_obj (rest : List Char) (v : JVal)
    (h : jsonParse ('{' :: rest) = some v) : ∃ ms, v = JVal.obj ms := by
  simp only [jsonParse] at h
  rcases hv : jval? (2 * ('{' :: rest).length + 4) ('{' :: rest) with _ | ⟨w, r⟩
  · rw [hv] at h; simp at h
  · rw [hv] at h
    have hw : w = v := by
      by_cases hskip : skipJWs r = [] <;> simp [hskip] at h <;> tauto
    subst hw
    have hstep : (2 * ('{' :: rest).length + 4) = (2 * ('{' :: rest).length + 3) + 1 := rfl
    rw [hstep] at hv
    exact jval?_brace_obj _ rest w r hv

/-- The value recovered for the arguments region is always truthy: a
successful strict parse of the brace-led capture is an object, and the
manual fallback builds an object. -/
theorem manual_args_truthy (text cap : List Char)
    (h : scanFirst argsMatchAt text = some cap) :
    jTruthy (match jsonParse cap with
      | some v => v
      | none => parseArgumentsManually cap) = true := by
  obtain ⟨s, hs⟩ := scanFirst_some argsMatchAt text cap h
  obtain ⟨inner, hcap⟩ := argsMatchAt_shape s cap hs
  rcases hp : jsonParse cap with _ | v
  · simp [parseArgumentsManually, jTruthy]
  · rw [hcap] at hp
    obtain ⟨ms, hms⟩ := jsonParse_brace_is_obj _ v hp
    simp [hms, jTruthy]

/-- Claim C9, amended: the manual field-extraction tier yields a directive
exactly when all three patterns matched — a recovered `protocol` string, a
recovered `tool` string, and a recovered `arguments` region.  The recovered
strings are nonempty by the shape of the patterns and the recovered
arguments mapping is an object, hence truthy even when empty, so the
source's truthiness gate never rejects a candidate all three patterns
matched (in particular an empty recovered mapping is accepted). -/
theorem manual_tier_none_iff (text : List Char) :
    manualKeyValueExtraction text = none ↔
      (scanFirst (keyStrMatchAt (cl "protocol")) text = none ∨
       scanFirst (keyStrMatchAt (cl "tool")) text = none ∨
       scanFirst argsMatchAt text = none) := by
  simp only [manualKeyValueExtraction]
  rcases hp : scanFirst (keyStrMatchAt (cl "protocol")) text with _ | p
  · exact iff_of_true (by split <;> simp_all) (Or.inl rfl)
  · rcases ht : scanFirst (keyStrMatchAt (cl "tool")) text with _ | t
    · exact iff_of_true (by split <;> simp_all) (Or.inr (Or.inl rfl))
    · rcases ha : scanFirst argsMatchAt text with _ | cap
      · exact iff_of_true (by split <;> simp_all) (Or.inr (Or.inr rfl))
      · obtain ⟨sp, hsp⟩ := scanFirst_some _ text p hp
        obtain ⟨st, hst⟩ := scanFirst_some _ text t ht
        have hpne : ¬p.isEmpty := by
          have := keyStrMatchAt_ne_nil _ _ _ hsp
          simpa [List.isEmpty_iff] using this
        have htne : ¬t.isEmpty := by
          have := keyStrMatchAt_ne_nil _ _ _ hst
          simpa [List.isEmpty_iff] using this
        have hat := manual_args_truthy text cap ha
        simp [hpne, htne, hat]

/-- Counterexample to claim C9 as stated: on a candidate whose recovered
arguments mapping is empty, the manual tier still yields a directive — the
empty object is truthy in JavaScript, so the final gate accepts it. -/
theorem manual_tier_accepts_empty_arguments :
    manualKeyValueExtraction
      (cl "\x7b\"protocol\":\"modai\",\"tool\":\"x\",\"arguments\":\x7b\x7d,\x7d") =
    some (JVal.obj [(cl "protocol", JVal.str (cl "modai")),
      (cl "tool", JVal.str (cl "x")), (cl "arguments", JVal.obj [])]) := by rfl

/-! ### Claim C8: per-turn execution order and context lines -/

/-- When every parsed object carries a string `tool` and those values are
pairwise distinct, the by-name lookup of `findToolRequestInResponse` finds
each request itself. -/
theorem find_by_tool_of_nodup :
    ∀ (l : List JVal) (req : JVal), req ∈ l →
      (∀ o ∈ l, isStrO (jGet o (cl "tool")) = true) →
      (l.map (fun o => jGet o (cl "tool"))).Nodup →
      l.find? (fun o => jStrictEqO (jGet o (cl "tool")) (jGet req (cl "tool"))) =
        some req := by
  intro l
  induction l with
  | nil => intro req hmem; simp at hmem
  | cons y ys ih =>
    intro req hmem hstr hnodup
    rcases List.mem_cons.mp hmem with rfl | hmem2
    · have hy := hstr req (List.mem_cons_self _ _)
      rcases hg : jGet req (cl "tool") with _ | v
      · rw [hg] at hy; simp [isStrO] at hy
      · rcases v with _ | _ | _ | s | _ | _ <;> rw [hg] at hy <;> simp [isStrO] at hy
        rw [List.find?_cons]
        simp [hg, jStrictEqO, jStrictEq]
    · obtain ⟨h1, h2⟩ : (∀ x ∈ ys, ¬jGet x (cl "tool") = jGet y (cl "tool")) ∧
          (List.map (fun o => jGet o (cl "tool")) ys).Nodup := by simpa using hnodup
      have hyne : jGet y (cl "tool") ≠ jGet req (cl "tool") := fun hcontra =>
        h1 req hmem2 hcontra.symm
      have hys := hstr y (List.mem_cons_self _ _)
      have hrs := hstr req (List.mem_cons.mpr (Or.inr hmem2))
      have hpred : jStrictEqO (jGet y (cl "tool")) (jGet req (cl "tool")) = false := by
        rcases hgy : jGet y (cl "tool") with _ | vy
        · rw [hgy] at hys; simp [isStrO] at hys
        · rcases hgr : jGet req (cl "tool") with _ | vr
          · rw [hgr] at hrs; simp [isStrO] at hrs
          · rcases vy with _ | _ | _ | sy | _ | _ <;> rw [hgy] at hys <;>
              simp [isStrO] at hys
            rcases vr with _ | _ | _ | sr | _ | _ <;> rw [hgr] at hrs <;>
              simp [isStrO] at hrs
            have hne : sy ≠ sr := by
              intro hcontra
              exact hyne (by rw [hgy, hgr, hcontra])
            simp [jStrictEqO, jStrictEq, hne]
      rw [List.find?_cons]
      simp only [hpred]
      exact ih req hmem2 (fun o ho => hstr o (List.mem_cons.mpr (Or.inr ho))) h2

/-- Claim C8, amended: within one turn the directives are processed
strictly sequentially in extraction order — the i-th recorded result and
the i-th context line both come from the i-th extracted request, and each
record carries that request's own `tool` value.  The parameters shown in a
context line, however, are re-looked-up in the response text by tool name
(first match), so they are the executed directive's own arguments exactly
when the parsed objects carry pairwise-distinct string tool names; with
duplicate names the first same-named object's arguments are recorded
instead (see the counterexample). -/
theorem turn_sequential_order (tools : List Char → Option (Option JVal → Except JSErr JVal))
    (confirm : List Char → Bool) (response : List Char) (i : Nat) (req : JVal)
    (hstr : ∀ o ∈ parseJsonObjects response, isStrO (jGet o (cl "tool")) = true)
    (hnodup : ((parseJsonObjects response).map (fun o => jGet o (cl "tool"))).Nodup)
    (hget : (extractAndExecuteTools response).get? i = some req) :
    ((extractAndExecuteTools response).map (runOneRequest tools confirm)).get? i =
      some (runOneRequest tools confirm req) ∧
    (((extractAndExecuteTools response).map (runOneRequest tools confirm)).map
        (contextLine response)).get? i =
      some (contextLine response (runOneRequest tools confirm req)) ∧
    (runOneRequest tools confirm req).tool = jGet req (cl "tool") ∧
    findToolRequestInResponse response (jGet req (cl "tool")) = some req := by
  refine ⟨?_, ?_, ?_, ?_⟩
  · rw [List.get?_map, hget]; rfl
  · rw [List.get?_map, List.get?_map, hget]; rfl
  · simp only [runOneRequest]
    split <;> rfl
  · have hmem : req ∈ extractAndExecuteTools response := List.get?_mem hget
    have hpar : req ∈ parseJsonObjects response :=
      (List.mem_filter.mp hmem).1
    exact find_by_tool_of_nodup (parseJsonObjects response) req hpar hstr hnodup

/-- Counterexample to claim C8 as stated: with two same-named directives the
second directive executes with its own arguments (`a: "2"`), but its context
line records the FIRST directive's arguments (`a: "1"`), because the line
re-looks the request up by tool name. -/
theorem context_line_wrong_args_on_duplicate_names :
    (extractAndExecuteTools dupToolText).get? 1 = some dupVal2 ∧
    jGet dupVal2 (cl "arguments") = some (JVal.obj [(cl "a", JVal.str (cl "2"))]) ∧
    contextLine dupToolText (runOneRequest toolsOkT (fun _ => true) dupVal2) =
      cl "You executed t tool with these parameters: \x7b\"a\":\"1\"\x7d. The result was: null" :=
  ⟨rfl, rfl, rfl⟩

/-- Witness for the amended C8 at the distinct-names response. -/
theorem turn_sequential_order_witness :
    ((extractAndExecuteTools distToolText).get? 1 = some distVal2) ∧
    (((extractAndExecuteTools distToolText).map (runOneRequest toolsOkT (fun _ => true))).get? 1 =
      some (runOneRequest toolsOkT (fun _ => true) distVal2) ∧
     (((extractAndExecuteTools distToolText).map (runOneRequest toolsOkT (fun _ => true))).map
        (contextLine distToolText)).get? 1 =
      some (contextLine distToolText (runOneRequest toolsOkT (fun _ => true) distVal2)) ∧
     (runOneRequest toolsOkT (fun _ => true) distVal2).tool = jGet distVal2 (cl "tool") ∧
     findToolRequestInResponse distToolText (jGet distVal2 (cl "tool")) = some distVal2) := by
  have hstr : ∀ o ∈ parseJsonObjects distToolText, isStrO (jGet o (cl "tool")) = true := by
    intro o ho
    rw [show parseJsonObjects distToolText = [distVal1, distVal2] from rfl] at ho
    rcases List.mem_cons.mp ho with rfl | ho2
    · rfl
    · rcases List.mem_cons.mp ho2 with rfl | ho3
      · rfl
      · simp at ho3
  have hnodup : ((parseJsonObjects distToolText).map (fun o => jGet o (cl "tool"))).Nodup := by
    rw [show (parseJsonObjects distToolText).map (fun o => jGet o (cl "tool")) =
      [some (JVal.str (cl "t")), some (JVal.str (cl "u"))] from rfl]
    refine List.nodup_cons.mpr ⟨?_, List.nodup_singleton _⟩
    intro hmem
    have := List.mem_singleton.mp hmem
    injection this with h1
    injection h1 with h2
    exact absurd h2 (by decide)
  exact ⟨rfl, turn_sequential_order toolsOkT (fun _ => true) distToolText 1 distVal2
    hstr hnodup rfl⟩

/-! ### Claim C2: texts with no recognizable protocol object -/

/-- Unpacking of `noModaiSpans` to all (unbounded) positions. -/
theorem noModaiSpans_prop (text : List Char) (h : noModaiSpans text = true) :
    ∀ (i : Nat) (js : List Char),
      extractScan 0 false false (text.drop i) = some js → pushCond js = false := by
  intro i js hjs
  by_cases hle : i ≤ text.length
  · have hmem : i ∈ List.range (text.length + 1) := List.mem_range.mpr (by omega)
    have := (List.all_eq_true.mp h) i hmem
    rw [hjs] at this
    simpa using this
  · have hnil : text.drop i = [] := List.drop_eq_nil_of_le (by omega)
    rw [hnil] at hjs
    simp [extractScan] at hjs

/-- Dropping while a predicate holds is dropping some prefix length. -/
theorem dropWhile_is_drop (p : Char → Bool) :
    ∀ l : List Char, ∃ k, l.dropWhile p = l.drop k := by
  intro l
  induction l with
  | nil => exact ⟨0, rfl⟩
  | cons c tl ih =>
    by_cases hc : p c
    · obtain ⟨k, hk⟩ := ih
      exact ⟨k + 1, by simp [List.dropWhile, hc, hk]⟩
    · exact ⟨0, by simp [List.dropWhile, hc]⟩

/-- Scanning loop of `parseJsonObjects` on a text none of whose spans is
recognized: nothing is ever pushed. -/
theorem pjF_nil : ∀ (fuel : Nat) (text : List Char),
    (∀ i js, extractScan 0 false false (text.drop i) = some js →
      pushCond js = false) →
    pjF fuel text = [] := by
  intro fuel
  induction fuel with
  | zero => intro text _; rfl
  | succ n ih =>
    intro text hP
    obtain ⟨k, hk⟩ := dropWhile_is_drop (fun c => !(c == '{')) text
    simp only [pjF]
    split
    · rfl
    · rename_i c tl hd
      have hck : c :: tl = text.drop k := by rw [← hk, hd]
      have htl : tl = text.drop (k + 1) := by
        have := congrArg List.tail hck
        simpa [List.tail_drop] using this
      split
      · rename_i js hs
        have hpc : pushCond js = false := hP k js (by rw [hck] at hs; exact hs)
        have hrec : pjF n ((c :: tl).drop js.length) = [] := by
          apply ih
          intro i js' h'
          rw [hck, List.drop_drop, List.drop_drop] at h'
          exact hP (k + (js.length + i)) js' h'
        rcases hcv : candidateVal js with _ | v
        · simpa [hcv] using hrec
        · have hpm : protocolModai v = false := by
            rw [pushCond, hcv] at hpc
            exact hpc
          simpa [hcv, hpm] using hrec
      · rename_i hs
        exact ih tl (fun i js' h' => hP (k + 1 + i) js'
          (by rw [htl, List.drop_drop] at h'; exact h'))

/-- Deletion loop of `cleanToolsFromResponse` on a text none of whose spans
is recognized: nothing is deleted. -/
theorem cleanAuxF_id : ∀ (fuel : Nat) (text : List Char),
    (∀ i js, extractScan 0 false false (text.drop i) = some js →
      pushCond js = false) →
    cleanAuxF fuel text = text := by
  intro fuel
  induction fuel with
  | zero => intro text _; rfl
  | succ n ih =>
    intro text hP
    obtain ⟨k, hk⟩ := dropWhile_is_drop (fun c => !(c == '{')) text
    simp only [cleanAuxF]
    split
    · rfl
    · rename_i c tl hd
      have hck : c :: tl = text.drop k := by rw [← hk, hd]
      have htl : tl = text.drop (k + 1) := by
        have := congrArg List.tail hck
        simpa [List.tail_drop] using this
      have htlid : cleanAuxF n tl = tl := ih tl (fun i js' h' =>
        hP (k + 1 + i) js' (by rw [htl, List.drop_drop] at h'; exact h'))
      have hsplit : text.takeWhile (fun c => !(c == '{')) ++ c :: tl = text := by
        rw [← hd]
        exact List.takeWhile_append_dropWhile _ _
      split
      · rename_i js hs
        have hpc : pushCond js = false := hP k js (by rw [hck] at hs; exact hs)
        rw [hpc]
        simp only [Bool.false_eq_true, if_false]
        rw [htlid]
        exact hsplit
      · rename_i hs
        rw [htlid]
        exact hsplit

/-- Claim C2, amended: when no embedded brace-balanced span is recognized as
a `protocol:"modai"` object (no `protocol` field, or any other value, at any
tier), `extractAll` returns the empty sequence, and `stripAll` deletes
nothing — but it still applies its unconditional final whitespace
normalization (collapse newline runs, drop one leading/trailing newline,
trim), so the text is returned unchanged only up to that normalization. -/
theorem no_modai_extract_none_strip_normalizes (text : List Char)
    (h : noModaiSpans text = true) :
    parseJsonObjects text = [] ∧ cleanToolsFromResponse text = normalizeWS text := by
  have hP := noModaiSpans_prop text h
  exact ⟨pjF_nil _ text hP, by
    rw [cleanToolsFromResponse, cleanAuxF_id _ text hP]⟩

/-- Witness for the amended C2 at a concrete non-modai object. -/
theorem no_modai_extract_none_strip_normalizes_witness :
    noModaiSpans (cl "hello \x7b\"protocol\":\"other\"\x7d bye") = true ∧
    (parseJsonObjects (cl "hello \x7b\"protocol\":\"other\"\x7d bye") = [] ∧
     cleanToolsFromResponse (cl "hello \x7b\"protocol\":\"other\"\x7d bye") =
       normalizeWS (cl "hello \x7b\"protocol\":\"other\"\x7d bye")) :=
  ⟨rfl, no_modai_extract_none_strip_normalizes _ rfl⟩

/-- Counterexample to claim C2 as stated: a text whose only embedded object
has `protocol:"x"` and which contains a blank line; nothing is extracted,
yet `stripAll` does not return the text unchanged — its unconditional
whitespace normalization collapses the blank line. -/
theorem strip_changes_text_without_directives :
    noModaiSpans (cl "a\n\n\x7b\"protocol\":\"x\"\x7d") = true ∧
    parseJsonObjects (cl "a\n\n\x7b\"protocol\":\"x\"\x7d") = [] ∧
    cleanToolsFromResponse (cl "a\n\n\x7b\"protocol\":\"x\"\x7d") ≠
      (cl "a\n\n\x7b\"protocol\":\"x\"\x7d") :=
  ⟨rfl, rfl, by decide⟩

/-! ### Claim C1: directives whose argument values contain literal braces -/

/-- Unpacking of `plainChar` into the Bool tests used by `jstrBody`. -/
theorem plainChar_spec (c : Char) (h : plainChar c = true) :
    (c == '"') = false ∧ (c == '\\') = false ∧ decide (c.toNat < 32) = false := by
  rw [plainChar, Bool.and_eq_true, Bool.and_eq_true] at h
  exact ⟨by simpa using h.1, by simpa using h.2.1, by simpa using h.2.2⟩

/-- A JSON string body made of plain characters parses to exactly those
characters, consuming the closing quote. -/
theorem jstrBody_plain : ∀ (t rest : List Char), (∀ c ∈ t, plainChar c = true) →
    jstrBody (t ++ '"' :: rest) = some (t, rest) := by
  intro t
  induction t with
  | nil =>
    intro rest _
    rw [List.nil_append, jstrBody.eq_def]
    simp
  | cons c tl ih =>
    intro rest hp
    obtain ⟨h1, h2, h3⟩ := plainChar_spec c (hp c (List.mem_cons_self _ _))
    rw [List.cons_append, jstrBody.eq_def]
    simp only [h1, h2, h3, Bool.false_eq_true, if_false]
    rw [ih rest (fun x hx => hp x (List.mem_cons.mpr (Or.inr hx)))]
    rfl

/-- One parser step at a string head (definitional). -/
theorem jval?_strHead (f : Nat) (X : List Char) :
    jval? (f + 1) ('"' :: X) = (jstrBody X).map (fun p => (JVal.str p.1, p.2)) := rfl

/-- One parser step at an object head whose first member key follows
immediately (definitional). -/
theorem jval?_objQuote (f : Nat) (Z : List Char) :
    jval? (f + 1) ('{' :: '"' :: Z) =
      (jfields? f ('"' :: Z)).map (fun p => (JVal.obj p.1, p.2)) := rfl

/-- A quoted plain string value parses to a string value. -/
theorem jval?_qt (f : Nat) (t rest : List Char) (hp : ∀ c ∈ t, plainChar c = true) :
    jval? (f + 1) (qt t ++ rest) = some (JVal.str t, rest) := by
  have hq : qt t ++ rest = '"' :: (t ++ '"' :: rest) := by simp [qt]
  rw [hq, jval?_strHead, jstrBody_plain t rest hp]
  rfl

/-- An object member whose value parse ends at a closing brace finishes the
member list. -/
theorem jfields?_member_last (f : Nat) (key Y : List Char) (v : JVal)
    (rest : List Char) (hp : ∀ c ∈ key, plainChar c = true)
    (hv : jval? f Y = some (v, '}' :: rest)) :
    jfields? (f + 1) (qt key ++ ':' :: Y) = some ([(key, v)], rest) := by
  have hz := jstrBody_plain key (':' :: Y) hp
  have hq : qt key ++ ':' :: Y = '"' :: (key ++ '"' :: ':' :: Y) := by simp [qt]
  rw [hq]
  simp [jfields?, skipJWs, isJsonWs, hz, hv]

/-- An object member whose value parse ends at a comma continues with the
remaining members. -/
theorem jfields?_member_cons (f : Nat) (key Y r4 : List Char) (v : JVal)
    (ms : List (List Char × JVal)) (rest : List Char)
    (hp : ∀ c ∈ key, plainChar c = true)
    (hv : jval? f Y = some (v, ',' :: r4))
    (hrec : jfields? f r4 = some (ms, rest)) :
    jfields? (f + 1) (qt key ++ ':' :: Y) = some ((key, v) :: ms, rest) := by
  have hz := jstrBody_plain key (':' :: Y) hp
  have hq : qt key ++ ':' :: Y = '"' :: (key ++ '"' :: ':' :: Y) := by simp [qt]
  rw [hq]
  simp [jfields?, skipJWs, isJsonWs, hz, hv, hrec]

/-- The inner one-entry arguments object parses to a one-field object. -/
theorem jval?_innerObj (f : Nat) (k s rest : List Char)
    (hpk : ∀ c ∈ k, plainChar c = true) (hps : ∀ c ∈ s, plainChar c = true) :
    jval? (f + 3) ('{' :: qt k ++ ':' :: qt s ++ '}' :: rest) =
      some (JVal.obj [(k, JVal.str s)], rest) := by
  have hsh : ('{' :: qt k ++ ':' :: qt s ++ '}' :: rest : List Char) =
      '{' :: '"' :: (k ++ '"' :: ':' :: (qt s ++ '}' :: rest)) := by
    simp [qt]
  rw [hsh, show f + 3 = (f + 2) + 1 from rfl, jval?_objQuote]
  have hmem : jfields? (f + 2) ('"' :: (k ++ '"' :: ':' :: (qt s ++ '}' :: rest))) =
      some ([(k, JVal.str s)], rest) := by
    have hq : ('"' :: (k ++ '"' :: ':' :: (qt s ++ '}' :: rest)) : List Char) =
        qt k ++ ':' :: (qt s ++ '}' :: rest) := by simp [qt]
    rw [hq, show f + 2 = (f + 1) + 1 from rfl]
    exact jfields?_member_last (f + 1) k (qt s ++ '}' :: rest) (JVal.str s) rest hpk
      (jval?_qt f s ('}' :: rest) hps)
  rw [hmem]
  rfl

/-- The full directive text parses to the expected three-field object, with
the remainder untouched. -/
theorem jval?_dir (f : Nat) (t k s rest : List Char)
    (hpt : ∀ c ∈ t, plainChar c = true) (hpk : ∀ c ∈ k, plainChar c = true)
    (hps : ∀ c ∈ s, plainChar c = true) :
    jval? (f + 7) (dirChars t k s ++ rest) = some (dirVal t k s, rest) := by
  have hsh : dirChars t k s ++ rest =
      '{' :: '"' :: (cl "protocol" ++ '"' :: ':' ::
        (qt (cl "modai") ++ ',' :: (qt (cl "tool") ++ ':' ::
          (qt t ++ ',' :: (qt (cl "arguments") ++ ':' ::
            ('{' :: qt k ++ ':' :: qt s ++ '}' :: ('}' :: rest))))))) := by
    simp [dirChars, qt, cl]
  rw [hsh, show f + 7 = (f + 6) + 1 from rfl, jval?_objQuote]
  have hargs : jfields? (f + 4)
      (qt (cl "arguments") ++ ':' ::
        ('{' :: qt k ++ ':' :: qt s ++ '}' :: ('}' :: rest))) =
      some ([(cl "arguments", JVal.obj [(k, JVal.str s)])], rest) := by
    rw [show f + 4 = (f + 3) + 1 from rfl]
    exact jfields?_member_last (f + 3) (cl "arguments") _ _ rest (by decide)
      (jval?_innerObj f k s ('}' :: rest) hpk hps)
  have htool : jfields? (f + 5)
      (qt (cl "tool") ++ ':' ::
        (qt t ++ ',' :: (qt (cl "arguments") ++ ':' ::
          ('{' :: qt k ++ ':' :: qt s ++ '}' :: ('}' :: rest))))) =
      some ([(cl "tool", JVal.str t),
        (cl "arguments", JVal.obj [(k, JVal.str s)])], rest) := by
    rw [show f + 5 = (f + 4) + 1 from rfl]
    exact jfields?_member_cons (f + 4) (cl "tool") _ _ (JVal.str t) _ rest (by decide)
      (jval?_qt (f + 3) t _ hpt) hargs
  have hproto : jfields? (f + 6)
      ('"' :: (cl "protocol" ++ '"' :: ':' ::
        (qt (cl "modai") ++ ',' :: (qt (cl "tool") ++ ':' ::
          (qt t ++ ',' :: (qt (cl "arguments") ++ ':' ::
            ('{' :: qt k ++ ':' :: qt s ++ '}' :: ('}' :: rest)))))))) =
      some ([(cl "protocol", JVal.str (cl "modai")), (cl "tool", JVal.str t),
        (cl "arguments", JVal.obj [(k, JVal.str s)])], rest) := by
    have hq : ('"' :: (cl "protocol" ++ '"' :: ':' ::
        (qt (cl "modai") ++ ',' :: (qt (cl "tool") ++ ':' ::
          (qt t ++ ',' :: (qt (cl "arguments") ++ ':' ::
            ('{' :: qt k ++ ':' :: qt s ++ '}' :: ('}' :: rest))))))) : List Char) =
        qt (cl "protocol") ++ ':' ::
          (qt (cl "modai") ++ ',' :: (qt (cl "tool") ++ ':' ::
            (qt t ++ ',' :: (qt (cl "arguments") ++ ':' ::
              ('{' :: qt k ++ ':' :: qt s ++ '}' :: ('}' :: rest)))))) := by
      simp [qt]
    rw [hq, show f + 6 = (f + 5) + 1 from rfl]
    exact jfields?_member_cons (f + 5) (cl "protocol") _ _ (JVal.str (cl "modai")) _
      rest (by decide) (jval?_qt (f + 4) (cl "modai") _ (by decide)) htool
  rw [hproto]
  rfl

/-- Plain characters are neither quotes nor backslashes. -/
theorem plainChar_ne (c : Char) (h : plainChar c = true) : ¬c = '"' ∧ ¬c = '\\' := by
  obtain ⟨h1, h2, _⟩ := plainChar_spec c h
  refine ⟨fun hc => ?_, fun hc => ?_⟩ <;> subst hc <;> simp at h1 h2

/-- A quote outside a string opens one. -/
theorem scan_quoteOpen (bc : Int) (rest : List Char) :
    extractScan bc false false ('"' :: rest) =
      (extractScan bc true false rest).map (List.cons '"') := by
  simp [extractScan]

/-- A quote inside a string closes it. -/
theorem scan_quoteClose (bc : Int) (rest : List Char) :
    extractScan bc true false ('"' :: rest) =
      (extractScan bc false false rest).map (List.cons '"') := by
  simp [extractScan]

/-- An opening brace outside a string increments the counter. -/
theorem scan_openStep (bc : Int) (rest : List Char) :
    extractScan bc false false ('{' :: rest) =
      (extractScan (bc + 1) false false rest).map (List.cons '{') := by
  simp [extractScan]

/-- A neutral character outside a string is consumed with no state change. -/
theorem scan_sepStep (bc : Int) (c : Char) (rest : List Char) (h1 : ¬c = '\\')
    (h2 : ¬c = '"') (h3 : ¬c = '{') (h4 : ¬c = '}') :
    extractScan bc false false (c :: rest) =
      (extractScan bc false false rest).map (List.cons c) := by
  simp [extractScan, h1, h2, h3, h4]

/-- Any non-quote non-backslash character inside a string — braces
included — is consumed with no state change: it is invisible to the counter. -/
theorem scan_inStrStep (bc : Int) (c : Char) (rest : List Char) (h1 : ¬c = '\\')
    (h2 : ¬c = '"') :
    extractScan bc true false (c :: rest) =
      (extractScan bc true false rest).map (List.cons c) := by
  simp [extractScan, h1, h2]

/-- A closing brace at counter 1 ends the scan, ignoring the rest. -/
theorem scan_closeHit (rest : List Char) :
    extractScan 1 false false ('}' :: rest) = some ['}'] := by
  simp [extractScan]

/-- A closing brace at counter 2 decrements and continues. -/
theorem scan_closePass (rest : List Char) :
    extractScan 2 false false ('}' :: rest) =
      (extractScan 1 false false rest).map (List.cons '}') := by
  have h1 : ((2 : Int) - 1 = 0) = False := by norm_num
  simp [extractScan, h1]

/-- A run of plain characters inside a string passes through the scan
unchanged (braces in it do not touch the counter). -/
theorem scan_seg (bc : Int) : ∀ (t rest : List Char),
    (∀ c ∈ t, plainChar c = true) →
    extractScan bc true false (t ++ rest) =
      (extractScan bc true false rest).map (fun z => t ++ z) := by
  intro t
  induction t with
  | nil => intro rest _; simp
  | cons c tl ih =>
    intro rest hp
    obtain ⟨h2, h1⟩ := plainChar_ne c (hp c (List.mem_cons_self _ _))
    rw [List.cons_append, scan_inStrStep bc c _ h1 h2,
      ih rest (fun x hx => hp x (List.mem_cons.mpr (Or.inr hx))), Option.map_map]
    rfl

/-- A whole quoted plain string passes through the scan unchanged. -/
theorem scan_qtSeg (bc : Int) (t rest : List Char)
    (hp : ∀ c ∈ t, plainChar c = true) :
    extractScan bc false false (qt t ++ rest) =
      (extractScan bc false false rest).map (fun z => qt t ++ z) := by
  have hsh : qt t ++ rest = '"' :: (t ++ '"' :: rest) := by simp [qt]
  rw [hsh, scan_quoteOpen, scan_seg bc t ('"' :: rest) hp, scan_quoteClose,
    Option.map_map, Option.map_map]
  congr 1
  funext z
  simp [qt]

/-- The balanced scan started at the directive's opening brace consumes
exactly the directive — brace characters inside the quoted tool name,
argument key or argument value never touch the counter — and returns it
bounded at its matching outer closing brace, whatever follows. -/
theorem scan_dir (t k s rest : List Char)
    (hpt : ∀ c ∈ t, plainChar c = true) (hpk : ∀ c ∈ k, plainChar c = true)
    (hps : ∀ c ∈ s, plainChar c = true) :
    extractScan 0 false false (dirChars t k s ++ rest) = some (dirChars t k s) := by
  simp only [dirChars, List.cons_append, List.append_assoc]
  rw [scan_openStep]
  rw [scan_qtSeg _ (cl "protocol") _ (by decide)]
  rw [scan_sepStep _ ':' _ (by decide) (by decide) (by decide) (by decide)]
  rw [scan_qtSeg _ (cl "modai") _ (by decide)]
  rw [scan_sepStep _ ',' _ (by decide) (by decide) (by decide) (by decide)]
  rw [scan_qtSeg _ (cl "tool") _ (by decide)]
  rw [scan_sepStep _ ':' _ (by decide) (by decide) (by decide) (by decide)]
  rw [scan_qtSeg _ t _ hpt]
  rw [scan_sepStep _ ',' _ (by decide) (by decide) (by decide) (by decide)]
  rw [scan_qtSeg _ (cl "arguments") _ (by decide)]
  rw [scan_sepStep _ ':' _ (by decide) (by decide) (by decide) (by decide)]
  rw [scan_openStep]
  rw [scan_qtSeg _ k _ hpk]
  rw [scan_sepStep _ ':' _ (by decide) (by decide) (by decide) (by decide)]
  rw [scan_qtSeg _ s _ hps]
  rw [show (0 : Int) + 1 + 1 = 2 from by norm_num]
  rw [scan_closePass, scan_closeHit]
  simp [qt, List.append_assoc]

/-- Strict `JSON.parse` accepts the directive text and yields its value. -/
theorem jsonParse_dir (t k s : List Char)
    (hpt : ∀ c ∈ t, plainChar c = true) (hpk : ∀ c ∈ k, plainChar c = true)
    (hps : ∀ c ∈ s, plainChar c = true) :
    jsonParse (dirChars t k s) = some (dirVal t k s) := by
  have hlen : 2 ≤ (dirChars t k s).length := by
    simp only [dirChars, qt, List.length_cons, List.length_append]
    omega
  have hf : 2 * (dirChars t k s).length + 4 =
      (2 * (dirChars t k s).length - 3) + 7 := by omega
  have h := jval?_dir (2 * (dirChars t k s).length - 3) t k s [] hpt hpk hps
  rw [List.append_nil] at h
  simp only [jsonParse]
  rw [hf, h]
  rfl

/-- A successful balanced scan consumes at least one and at most all of the
input characters. -/
theorem extractScan_length : ∀ (l : List Char) (bc : Int) (inStr esc : Bool)
    (js : List Char), extractScan bc inStr esc l = some js →
    1 ≤ js.length ∧ js.length ≤ l.length := by
  intro l
  induction l with
  | nil => intro bc inStr esc js h; simp [extractScan] at h
  | cons c rest ih =>
    intro bc inStr esc js h
    simp only [extractScan] at h
    split_ifs at h
    all_goals
      first
      | (obtain ⟨p, hp1, hp2⟩ := Option.map_eq_some'.mp h
         obtain ⟨hl1, hl2⟩ := ih _ _ _ p hp1
         subst hp2
         simp only [List.length_cons]
         omega)
      | (injection h with h2
         subst h2
         simp only [List.length_cons, List.length_nil]
         omega)

/-- The internal iteration budget of the extraction loop is irrelevant once
it exceeds the text length. -/
theorem pjF_congr : ∀ (f1 f2 : Nat) (text : List Char), text.length < f1 →
    text.length < f2 → pjF f1 text = pjF f2 text := by
  intro f1
  induction f1 with
  | zero => intro f2 text h1 _; omega
  | succ n ih =>
    intro f2 text h1 h2
    match f2, h2 with
    | m + 1, h2 =>
      simp only [pjF]
      rcases hd : text.dropWhile (fun c => !(c == '{')) with _ | ⟨c, tl⟩
      · rfl
      · obtain ⟨k, hk⟩ := dropWhile_is_drop (fun c => !(c == '{')) text
        have hck : c :: tl = text.drop k := by rw [← hk, hd]
        have hlen1 : tl.length + 1 ≤ text.length := by
          have hLL := congrArg List.length hck
          rw [List.length_cons, List.length_drop] at hLL
          omega
        have hgoal : (match extractScan 0 false false (c :: tl) with
            | some js =>
              (match candidateVal js with
               | some v => if protocolModai v then [v] else []
               | none => []) ++ pjF n ((c :: tl).drop js.length)
            | none => pjF n tl) =
            (match extractScan 0 false false (c :: tl) with
            | some js =>
              (match candidateVal js with
               | some v => if protocolModai v then [v] else []
               | none => []) ++ pjF m ((c :: tl).drop js.length)
            | none => pjF m tl) → (match c :: tl with
            | [] => ([] : List JVal)
            | c :: tl =>
              match extractScan 0 false false (c :: tl) with
              | some js =>
                (match candidateVal js with
                 | some v => if protocolModai v then [v] else []
                 | none => []) ++ pjF n ((c :: tl).drop js.length)
              | none => pjF n tl) =
            (match c :: tl with
            | [] => ([] : List JVal)
            | c :: tl =>
              match extractScan 0 false false (c :: tl) with
              | some js =>
                (match candidateVal js with
                 | some v => if protocolModai v then [v] else []
                 | none => []) ++ pjF m ((c :: tl).drop js.length)
              | none => pjF m tl) := fun h => h
        apply hgoal
        rcases hs : extractScan 0 false false (c :: tl) with _ | js
        · exact ih m tl (by omega) (by omega)
        · obtain ⟨hj1, hj2⟩ := extractScan_length _ _ _ _ _ hs
          have hrec := ih m ((c :: tl).drop js.length)
            (by rw [List.length_drop]; simp only [List.length_cons]; omega)
            (by rw [List.length_drop]; simp only [List.length_cons]; omega)
          exact congrArg
            (fun l => (match candidateVal js with
              | some v => if protocolModai v then [v] else []
              | none => []) ++ l) hrec

/-- Dropping over a prefix every character of which satisfies the predicate
continues into the suffix. -/
theorem dropWhile_append_all (p : Char → Bool) : ∀ (l1 l2 : List Char),
    (∀ c ∈ l1, p c = true) → (l1 ++ l2).dropWhile p = l2.dropWhile p := by
  intro l1
  induction l1 with
  | nil => intro l2 _; rfl
  | cons c t ih =>
    intro l2 h
    rw [List.cons_append]
    simp [List.dropWhile, h c (List.mem_cons_self _ _),
      ih l2 (fun x hx => h x (List.mem_cons.mpr (Or.inr hx)))]

/-- Claim C1: for an input text containing a well-formed protocol-"modai"
directive whose quoted argument string value contains literal brace
characters, `parseJsonObjects` returns that directive bounded at its matching
outer closing brace — the in-string braces do not terminate the balanced scan
early and the full argument string is recovered — and scanning resumes after
the directive. -/
theorem braces_in_strings_extracted (pre post t k s : List Char)
    (hpre : '{' ∉ pre)
    (hpt : ∀ c ∈ t, plainChar c = true) (hpk : ∀ c ∈ k, plainChar c = true)
    (hps : ∀ c ∈ s, plainChar c = true)
    (hbrace : '{' ∈ s ∨ '}' ∈ s) :
    parseJsonObjects (pre ++ (dirChars t k s ++ post)) =
      dirVal t k s :: parseJsonObjects post := by
  have hT : dirChars t k s ++ post = '{' :: ((dirChars t k s).tail ++ post) := rfl
  have hppre : ∀ c ∈ pre, (!(c == '{')) = true := by
    intro c hc
    have hne : c ≠ '{' := fun h => hpre (h ▸ hc)
    simp [hne]
  have hdrop : (pre ++ (dirChars t k s ++ post)).dropWhile (fun c => !(c == '{')) =
      '{' :: ((dirChars t k s).tail ++ post) := by
    rw [dropWhile_append_all _ pre _ hppre, hT]
    simp [List.dropWhile]
  have hscan := scan_dir t k s post hpt hpk hps
  rw [hT] at hscan
  have hcand : candidateVal (dirChars t k s) = some (dirVal t k s) := by
    simp [candidateVal, jsonParse_dir t k s hpt hpk hps]
  have hproto : protocolModai (dirVal t k s) = true := rfl
  have hdlen : 1 ≤ (dirChars t k s).length := by
    simp only [dirChars, qt, List.length_append, List.length_cons]
    omega
  have hL : post.length < (pre ++ (dirChars t k s ++ post)).length := by
    simp only [List.length_append]
    omega
  show pjF ((pre ++ (dirChars t k s ++ post)).length + 1)
      (pre ++ (dirChars t k s ++ post)) = dirVal t k s :: parseJsonObjects post
  simp only [pjF]
  rw [hdrop]
  show (match extractScan 0 false false ('{' :: ((dirChars t k s).tail ++ post)) with
    | some js => (match candidateVal js with
        | some v => if protocolModai v then [v] else []
        | none => []) ++ pjF (pre ++ (dirChars t k s ++ post)).length
          (('{' :: ((dirChars t k s).tail ++ post)).drop js.length)
    | none => pjF (pre ++ (dirChars t k s ++ post)).length
        ((dirChars t k s).tail ++ post)) = dirVal t k s :: parseJsonObjects post
  rw [hscan]
  show (match candidateVal (dirChars t k s) with
      | some v => if protocolModai v then [v] else []
      | none => []) ++ pjF (pre ++ (dirChars t k s ++ post)).length
        (('{' :: ((dirChars t k s).tail ++ post)).drop (dirChars t k s).length) =
      dirVal t k s :: parseJsonObjects post
  rw [hcand]
  show (if protocolModai (dirVal t k s) then [dirVal t k s] else []) ++
      pjF (pre ++ (dirChars t k s ++ post)).length
        (('{' :: ((dirChars t k s).tail ++ post)).drop (dirChars t k s).length) =
      dirVal t k s :: parseJsonObjects post
  rw [hproto]
  have hdropEq : ('{' :: ((dirChars t k s).tail ++ post)).drop (dirChars t k s).length
      = post := by
    rw [← hT]
    exact List.drop_left _ _
  rw [hdropEq]
  rw [pjF_congr _ (post.length + 1) post hL (by omega)]
  rfl

theorem braces_in_strings_extracted_witness :
    parseJsonObjects (cl "Sure! " ++
        (dirChars (cl "exec") (cl "cmd") (cl "a\x7bb\x7dc") ++ cl " done")) =
      dirVal (cl "exec") (cl "cmd") (cl "a\x7bb\x7dc") ::
        parseJsonObjects (cl " done") :=
  braces_in_strings_extracted (cl "Sure! ") (cl " done") (cl "exec") (cl "cmd")
    (cl "a\x7bb\x7dc") (by decide) (by decide) (by decide) (by decide) (by decide)
